import Mathlib

/-!
# Refluxio: verification of the dispatch engine

A shallow embedding of the refluxio state-container library:

* `deepEqual` (src/deep-equal.ts): the structural-equality comparator with
  NaN-aware identity, prototype check, a visited-pair memo threaded through
  every recursive call, and branches for arrays, dates, regexps, sets, maps
  and plain records.
* the Store Core (src/create-store.ts): `baseDispatch`, `subscribe` /
  `unsubscribe`, with listener notification modelled as an event trace.
* the Middleware Pipeline (src/apply-middleware.ts): `guardedDispatch` with
  its `isReducing` re-entrancy guard, the capability object, and the
  right-fold composition; `createStore`'s reassignment of `store.dispatch`
  is modelled by the fuel-indexed knot `createStoreDispatchF`, since
  `guardedDispatch` reads `store.dispatch` at call time.

JavaScript objects are modelled as references (`JSVal.obj id`) into a finite
heap (`Heap := List ObjData`); `Object.is` on composites is index equality,
and the `WeakMap` memo is an association list of id pairs.  Functions are
opaque identities (`JSVal.fn id`).  Plain objects are lists of own
enumerable string-keyed fields; property lookup searches own fields.
Recursion is by explicit fuel: the public comparator runs with fuel
`h.length + 1`, which is proved sufficient for every input.
-/

namespace Refluxio

/-- JavaScript numbers, as far as the comparator distinguishes them:
integers plus NaN (`Object.is` treats NaN as equal to itself). -/
inductive JSNum where
  | int (i : Int)
  | nan
deriving DecidableEq, Repr

/-- JavaScript values: primitives, opaque function references, object
references into a heap, and the members inherited from
`Object.prototype` (`builtin name`): realm-wide unique values — builtin
functions such as `toString`, plus the `__proto__` accessor's result —
that property access on a plain object can produce even though they are
not own properties.  They are opaque and identity-only: two occurrences
of `builtin k` denote the same runtime object. -/
inductive JSVal where
  | undef
  | vnull
  | bool (b : Bool)
  | num (n : JSNum)
  | str (s : String)
  | fn (id : Nat)
  | obj (id : Nat)
  | builtin (name : String)
deriving DecidableEq, Repr

/-- Heap object payloads: the composite shapes the comparator branches on.
The constructor determines the prototype (`Array.prototype`,
`Date.prototype`, ...); a plain record has `Object.prototype`. -/
inductive ObjData where
  | arr (elems : List JSVal)
  | date (t : Int)
  | regexp (source : String) (flags : String)
  | set (elems : List JSVal)
  | map (entries : List (JSVal × JSVal))
  | record (fields : List (String × JSVal))
deriving DecidableEq, Repr

abbrev Heap := List ObjData

/-- Prototype tags: `Object.getPrototypeOf(a) !== Object.getPrototypeOf(b)`
is modelled as inequality of the payload's constructor tag. -/
inductive ProtoTag where
  | arr | date | regexp | set | map | record
deriving DecidableEq, Repr

def ObjData.tag : ObjData → ProtoTag
  | .arr _ => .arr
  | .date _ => .date
  | .regexp _ _ => .regexp
  | .set _ => .set
  | .map _ => .map
  | .record _ => .record

/-- `Object.is(a, b)`: identity, with NaN equal to NaN.  On composites and
functions this is reference (index) equality. -/
def objIs : JSVal → JSVal → Bool
  | .undef, .undef => true
  | .vnull, .vnull => true
  | .bool x, .bool y => x == y
  | .num x, .num y => x == y
  | .str x, .str y => x == y
  | .fn i, .fn j => i == j
  | .obj i, .obj j => i == j
  | .builtin x, .builtin y => x == y
  | _, _ => false

/-- The `seen` WeakMap of the comparator: pairs (left object id, right
object id), looked up by left id. -/
abbrev Seen := List (Nat × Nat)

/-- `seen.get(a)`. -/
def seenLookup : Seen → Nat → Option Nat
  | [], _ => none
  | (k, v) :: rest, i => if k = i then some v else seenLookup rest i

/-- Own-property lookup on a plain record: the first step of property
access; used directly for `objA[key]` when `key` is one of `objA`'s own
enumerable keys. -/
def fieldLookup : List (String × JSVal) → String → Option JSVal
  | [], _ => none
  | (k, v) :: rest, key => if k = key then some v else fieldLookup rest key

/-- The string-keyed own properties of `Object.prototype`: the prototype
chain of every plain record exposes these to `in` and to property
access, so `"toString" in objB` is true for every plain object. -/
def objectProtoKeys : List String :=
  [ "constructor", "hasOwnProperty", "isPrototypeOf",
    "propertyIsEnumerable", "toLocaleString", "toString", "valueOf",
    "__defineGetter__", "__defineSetter__", "__lookupGetter__",
    "__lookupSetter__", "__proto__" ]

/-- Property lookup through the prototype chain of a plain record: own
fields first, then the inherited `Object.prototype` member.  The test
`key in objB` is `(protoLookup fb key).isSome`, and `objB[key]` is the
value found. -/
def protoLookup (fb : List (String × JSVal)) (key : String) : Option JSVal :=
  match fieldLookup fb key with
  | some v => some v
  | none => if key ∈ objectProtoKeys then some (.builtin key) else none

/-- The type of a fueled comparison step: the child comparator passed to
the loop combinators.  `none` means fuel ran out. -/
abbrev Cmp := JSVal → JSVal → Seen → Option (Bool × Seen)

/-- The array branch loop: index-aligned comparison, short-circuiting on
the first unequal pair, threading the memo. -/
def eqListC (k : Cmp) : List JSVal → List JSVal → Seen → Option (Bool × Seen)
  | [], _, s => some (true, s)
  | _ :: _, [], s => some (false, s)
  | a :: as, b :: bs, s =>
    match k a b s with
    | some (true, s') => eqListC k as bs s'
    | some (false, s') => some (false, s')
    | none => none

/-- The Set branch inner loop: scan `bs` for some element deep-equal to
`av`; every attempted comparison (also the failing ones) mutates the memo. -/
def setFindC (k : Cmp) (av : JSVal) : List JSVal → Seen → Option (Bool × Seen)
  | [], s => some (false, s)
  | bv :: bs, s =>
    match k av bv s with
    | some (true, s') => some (true, s')
    | some (false, s') => setFindC k av bs s'
    | none => none

/-- The Set branch outer loop: every element of the left set must find a
match somewhere in the right set (matched elements are not removed). -/
def setAllC (k : Cmp) : List JSVal → List JSVal → Seen → Option (Bool × Seen)
  | [], _, s => some (true, s)
  | av :: as, bs, s =>
    match setFindC k av bs s with
    | some (true, s') => setAllC k as bs s'
    | some (false, s') => some (false, s')
    | none => none

/-- The Map branch inner loop: scan the right map's entries for one whose
key and value are both deep-equal; `&&` short-circuits, so a failing key
comparison skips the value comparison. -/
def mapFindC (k : Cmp) (ak av : JSVal) :
    List (JSVal × JSVal) → Seen → Option (Bool × Seen)
  | [], s => some (false, s)
  | (bk, bv) :: bs, s =>
    match k ak bk s with
    | some (true, s1) =>
      match k av bv s1 with
      | some (true, s2) => some (true, s2)
      | some (false, s2) => mapFindC k ak av bs s2
      | none => none
    | some (false, s1) => mapFindC k ak av bs s1
    | none => none

/-- The Map branch outer loop. -/
def mapAllC (k : Cmp) : List (JSVal × JSVal) → List (JSVal × JSVal) → Seen →
    Option (Bool × Seen)
  | [], _, s => some (true, s)
  | (ak, av) :: as, bs, s =>
    match mapFindC k ak av bs s with
    | some (true, s') => mapAllC k as bs s'
    | some (false, s') => some (false, s')
    | none => none

/-- The plain-record branch loop over `keysA`: each own key of the left
record must be present in the right record (`key in objB`, which also
finds inherited `Object.prototype` members) with a deep-equal value
(`objB[key]`, likewise through the prototype chain).  The key-count
check happens after this loop. -/
def recordC (k : Cmp) (fb : List (String × JSVal)) :
    List (String × JSVal) → Seen → Option (Bool × Seen)
  | [], s => some (true, s)
  | (key, av) :: rest, s =>
    match protoLookup fb key with
    | none => some (false, s)
    | some bv =>
      match k av bv s with
      | some (true, s') => recordC k fb rest s'
      | some (false, s') => some (false, s')
      | none => none

/-- `deepEqual(a, b, seen)` from src/deep-equal.ts, with explicit fuel.
Branch order follows the source: `Object.is`; primitive/null rejection;
prototype mismatch; cycle memo (hit: equal iff paired with exactly this
right object; miss: record the pairing); then array, Date, RegExp, Set,
Map, and the plain-record fallback (keys loop, then key-count check). -/
def deepEqualF (h : Heap) : Nat → Cmp
  | 0 => fun _ _ _ => none
  | fuel + 1 => fun a b seen =>
    if objIs a b then some (true, seen)
    else
      match a, b with
      | .obj ia, .obj ib =>
        match h.get? ia, h.get? ib with
        | some da, some db =>
          if da.tag ≠ db.tag then some (false, seen)
          else
            match seenLookup seen ia with
            | some cached => some (decide (cached = ib), seen)
            | none =>
              let seen1 := seen ++ [(ia, ib)]
              match da, db with
              | .arr as, .arr bs =>
                if as.length ≠ bs.length then some (false, seen1)
                else eqListC (deepEqualF h fuel) as bs seen1
              | .date ta, .date tb => some (decide (ta = tb), seen1)
              | .regexp sa fa, .regexp sb fb =>
                some (decide (sa = sb) && decide (fa = fb), seen1)
              | .set as, .set bs =>
                if as.length ≠ bs.length then some (false, seen1)
                else setAllC (deepEqualF h fuel) as bs seen1
              | .map am, .map bm =>
                if am.length ≠ bm.length then some (false, seen1)
                else mapAllC (deepEqualF h fuel) am bm seen1
              | .record fa, .record fb =>
                match recordC (deepEqualF h fuel) fb fa seen1 with
                | some (true, s') =>
                  some (decide (fa.length = fb.length), s')
                | r => r
              | _, _ => some (false, seen1)
        | _, _ => some (false, seen)
      | _, _ => some (false, seen)

/-- The public comparator `deepEqual(a, b)`: fresh memo, fuel
`h.length + 1` (proved sufficient below; the `false` default is never
reached). -/
def deepEqual (h : Heap) (a b : JSVal) : Bool :=
  match deepEqualF h (h.length + 1) a b [] with
  | some (r, _) => r
  | none => false

/-! ## Bookkeeping for the visited-pair memo -/

/-- The left-hand object ids recorded in the memo. -/
def seenKeys (s : Seen) : List Nat := s.map Prod.fst

lemma seenKeys_append (s t : Seen) :
    seenKeys (s ++ t) = seenKeys s ++ seenKeys t := by
  simp [seenKeys]

lemma seenLookup_eq_none {s : Seen} {i : Nat} :
    seenLookup s i = none ↔ i ∉ seenKeys s := by
  induction s with
  | nil => simp [seenLookup, seenKeys]
  | cons p rest ih =>
    obtain ⟨k, v⟩ := p
    by_cases hk : k = i
    · subst hk; simp [seenLookup, seenKeys]
    · simp [seenLookup, hk, seenKeys] at ih ⊢
      exact ⟨fun hn => ⟨fun he => hk he.symm, ih.mp hn⟩, fun hn => ih.mpr hn.2⟩

/-- Invariant maintained by the comparator: memo keys are distinct valid
heap indices. -/
def SeenInv (h : Heap) (s : Seen) : Prop :=
  (seenKeys s).Nodup ∧ ∀ i ∈ seenKeys s, i < h.length

lemma seenInv_nil (h : Heap) : SeenInv h [] := by
  constructor <;> simp [seenKeys]

lemma SeenInv.length_le {h : Heap} {s : Seen} (hs : SeenInv h s) :
    s.length ≤ h.length := by
  have hlen : s.length = (seenKeys s).length := by simp [seenKeys]
  rw [hlen]
  have hcard : (seenKeys s).toFinset.card = (seenKeys s).length :=
    List.toFinset_card_of_nodup hs.1
  have hsub : (seenKeys s).toFinset ⊆ Finset.range h.length := by
    intro i hi
    simp only [List.mem_toFinset] at hi
    exact Finset.mem_range.mpr (hs.2 i hi)
  calc (seenKeys s).length = (seenKeys s).toFinset.card := hcard.symm
    _ ≤ (Finset.range h.length).card := Finset.card_le_card hsub
    _ = h.length := Finset.card_range _

lemma heapGet_lt {h : Heap} {i : Nat} {d : ObjData} (hd : h.get? i = some d) :
    i < h.length := by
  by_contra hge
  rw [List.get?_eq_none.mpr (Nat.le_of_not_lt hge)] at hd
  exact Option.noConfusion hd

lemma seenInv_push {h : Heap} {s : Seen} {ia ib : Nat}
    (hs : SeenInv h s) (hfresh : ia ∉ seenKeys s) (hlt : ia < h.length) :
    SeenInv h (s ++ [(ia, ib)]) := by
  constructor
  · rw [seenKeys_append, List.nodup_append]
    refine ⟨hs.1, by simp [seenKeys], ?_⟩
    intro x hx hx2
    have hxia : x = ia := by simpa [seenKeys] using hx2
    exact hfresh (hxia ▸ hx)
  · intro i hi
    rw [seenKeys_append] at hi
    rcases List.mem_append.mp hi with hi | hi
    · exact hs.2 i hi
    · simp [seenKeys] at hi; subst hi; exact hlt

/-! ## Memo monotonicity: every comparison only appends to the memo -/

/-- A comparison step preserves the memo invariant and only appends. -/
def CmpMono (h : Heap) (k : Cmp) : Prop :=
  ∀ a b s r s', k a b s = some (r, s') → SeenInv h s →
    SeenInv h s' ∧ ∃ t, s' = s ++ t

lemma eqListC_mono {h : Heap} {k : Cmp} (hk : CmpMono h k) :
    ∀ as bs s r s', eqListC k as bs s = some (r, s') → SeenInv h s →
      SeenInv h s' ∧ ∃ t, s' = s ++ t := by
  intro as
  induction as with
  | nil =>
    intro bs s r s' he hs
    simp only [eqListC] at he
    obtain ⟨he1, he2⟩ := Prod.mk.injEq .. ▸ (Option.some.injEq .. ▸ he)
    exact ⟨he2 ▸ hs, ⟨[], by simp [he2]⟩⟩
  | cons a as ih =>
    intro bs s r s' he hs
    cases bs with
    | nil =>
      simp only [eqListC, Option.some.injEq, Prod.mk.injEq] at he
      exact ⟨he.2 ▸ hs, ⟨[], by simp [he.2]⟩⟩
    | cons b bs =>
      simp only [eqListC] at he
      cases hstep : k a b s with
      | none => rw [hstep] at he; exact absurd he (by simp)
      | some p =>
        obtain ⟨r1, s1⟩ := p
        rw [hstep] at he
        obtain ⟨hs1, t1, ht1⟩ := hk a b s r1 s1 hstep hs
        cases r1 with
        | true =>
          simp only at he
          obtain ⟨hs', t2, ht2⟩ := ih bs s1 r s' he hs1
          exact ⟨hs', ⟨t1 ++ t2, by rw [ht2, ht1, List.append_assoc]⟩⟩
        | false =>
          simp only [Option.some.injEq, Prod.mk.injEq] at he
          exact ⟨he.2 ▸ hs1, ⟨t1, he.2 ▸ ht1⟩⟩

lemma setFindC_mono {h : Heap} {k : Cmp} (hk : CmpMono h k) (av : JSVal) :
    ∀ bs s r s', setFindC k av bs s = some (r, s') → SeenInv h s →
      SeenInv h s' ∧ ∃ t, s' = s ++ t := by
  intro bs
  induction bs with
  | nil =>
    intro s r s' he hs
    simp only [setFindC, Option.some.injEq, Prod.mk.injEq] at he
    exact ⟨he.2 ▸ hs, ⟨[], by simp [he.2]⟩⟩
  | cons b bs ih =>
    intro s r s' he hs
    simp only [setFindC] at he
    cases hstep : k av b s with
    | none => rw [hstep] at he; exact absurd he (by simp)
    | some p =>
      obtain ⟨r1, s1⟩ := p
      rw [hstep] at he
      obtain ⟨hs1, t1, ht1⟩ := hk av b s r1 s1 hstep hs
      cases r1 with
      | true =>
        simp only [Option.some.injEq, Prod.mk.injEq] at he
        exact ⟨he.2 ▸ hs1, ⟨t1, he.2 ▸ ht1⟩⟩
      | false =>
        simp only at he
        obtain ⟨hs', t2, ht2⟩ := ih s1 r s' he hs1
        exact ⟨hs', ⟨t1 ++ t2, by rw [ht2, ht1, List.append_assoc]⟩⟩

lemma setAllC_mono {h : Heap} {k : Cmp} (hk : CmpMono h k) :
    ∀ as bs s r s', setAllC k as bs s = some (r, s') → SeenInv h s →
      SeenInv h s' ∧ ∃ t, s' = s ++ t := by
  intro as
  induction as with
  | nil =>
    intro bs s r s' he hs
    simp only [setAllC, Option.some.injEq, Prod.mk.injEq] at he
    exact ⟨he.2 ▸ hs, ⟨[], by simp [he.2]⟩⟩
  | cons a as ih =>
    intro bs s r s' he hs
    simp only [setAllC] at he
    cases hstep : setFindC k a bs s with
    | none => rw [hstep] at he; exact absurd he (by simp)
    | some p =>
      obtain ⟨r1, s1⟩ := p
      rw [hstep] at he
      obtain ⟨hs1, t1, ht1⟩ := setFindC_mono hk a bs s r1 s1 hstep hs
      cases r1 with
      | true =>
        simp only at he
        obtain ⟨hs', t2, ht2⟩ := ih bs s1 r s' he hs1
        exact ⟨hs', ⟨t1 ++ t2, by rw [ht2, ht1, List.append_assoc]⟩⟩
      | false =>
        simp only [Option.some.injEq, Prod.mk.injEq] at he
        exact ⟨he.2 ▸ hs1, ⟨t1, he.2 ▸ ht1⟩⟩

lemma mapFindC_mono {h : Heap} {k : Cmp} (hk : CmpMono h k) (ak av : JSVal) :
    ∀ bs s r s', mapFindC k ak av bs s = some (r, s') → SeenInv h s →
      SeenInv h s' ∧ ∃ t, s' = s ++ t := by
  intro bs
  induction bs with
  | nil =>
    intro s r s' he hs
    simp only [mapFindC, Option.some.injEq, Prod.mk.injEq] at he
    exact ⟨he.2 ▸ hs, ⟨[], by simp [he.2]⟩⟩
  | cons b bs ih =>
    obtain ⟨bk, bv⟩ := b
    intro s r s' he hs
    simp only [mapFindC] at he
    cases hstep : k ak bk s with
    | none => rw [hstep] at he; exact absurd he (by simp)
    | some p =>
      obtain ⟨r1, s1⟩ := p
      rw [hstep] at he
      obtain ⟨hs1, t1, ht1⟩ := hk ak bk s r1 s1 hstep hs
      cases r1 with
      | true =>
        simp only at he
        cases hstep2 : k av bv s1 with
        | none => rw [hstep2] at he; exact absurd he (by simp)
        | some q =>
          obtain ⟨r2, s2⟩ := q
          rw [hstep2] at he
          obtain ⟨hs2, t2, ht2⟩ := hk av bv s1 r2 s2 hstep2 hs1
          cases r2 with
          | true =>
            simp only [Option.some.injEq, Prod.mk.injEq] at he
            refine ⟨he.2 ▸ hs2, ⟨t1 ++ t2, ?_⟩⟩
            rw [← he.2, ht2, ht1, List.append_assoc]
          | false =>
            simp only at he
            obtain ⟨hs', t3, ht3⟩ := ih s2 r s' he hs2
            refine ⟨hs', ⟨t1 ++ t2 ++ t3, ?_⟩⟩
            rw [ht3, ht2, ht1]; simp [List.append_assoc]
      | false =>
        simp only at he
        obtain ⟨hs', t2, ht2⟩ := ih s1 r s' he hs1
        exact ⟨hs', ⟨t1 ++ t2, by rw [ht2, ht1, List.append_assoc]⟩⟩

lemma mapAllC_mono {h : Heap} {k : Cmp} (hk : CmpMono h k) :
    ∀ as bs s r s', mapAllC k as bs s = some (r, s') → SeenInv h s →
      SeenInv h s' ∧ ∃ t, s' = s ++ t := by
  intro as
  induction as with
  | nil =>
    intro bs s r s' he hs
    simp only [mapAllC, Option.some.injEq, Prod.mk.injEq] at he
    exact ⟨he.2 ▸ hs, ⟨[], by simp [he.2]⟩⟩
  | cons a as ih =>
    obtain ⟨ak, av⟩ := a
    intro bs s r s' he hs
    simp only [mapAllC] at he
    cases hstep : mapFindC k ak av bs s with
    | none => rw [hstep] at he; exact absurd he (by simp)
    | some p =>
      obtain ⟨r1, s1⟩ := p
      rw [hstep] at he
      obtain ⟨hs1, t1, ht1⟩ := mapFindC_mono hk ak av bs s r1 s1 hstep hs
      cases r1 with
      | true =>
        simp only at he
        obtain ⟨hs', t2, ht2⟩ := ih bs s1 r s' he hs1
        exact ⟨hs', ⟨t1 ++ t2, by rw [ht2, ht1, List.append_assoc]⟩⟩
      | false =>
        simp only [Option.some.injEq, Prod.mk.injEq] at he
        exact ⟨he.2 ▸ hs1, ⟨t1, he.2 ▸ ht1⟩⟩

lemma recordC_mono {h : Heap} {k : Cmp} (hk : CmpMono h k)
    (fb : List (String × JSVal)) :
    ∀ fa s r s', recordC k fb fa s = some (r, s') → SeenInv h s →
      SeenInv h s' ∧ ∃ t, s' = s ++ t := by
  intro fa
  induction fa with
  | nil =>
    intro s r s' he hs
    simp only [recordC, Option.some.injEq, Prod.mk.injEq] at he
    exact ⟨he.2 ▸ hs, ⟨[], by simp [he.2]⟩⟩
  | cons p fa ih =>
    obtain ⟨key, av⟩ := p
    intro s r s' he hs
    cases hlk : protoLookup fb key with
    | none =>
      simp only [recordC, hlk, Option.some.injEq, Prod.mk.injEq] at he
      exact ⟨he.2 ▸ hs, ⟨[], by simp [he.2]⟩⟩
    | some bv =>
      simp only [recordC, hlk] at he
      cases hstep : k av bv s with
      | none => rw [hstep] at he; exact absurd he (by simp)
      | some q =>
        obtain ⟨r1, s1⟩ := q
        rw [hstep] at he
        obtain ⟨hs1, t1, ht1⟩ := hk av bv s r1 s1 hstep hs
        cases r1 with
        | true =>
          simp only at he
          obtain ⟨hs', t2, ht2⟩ := ih s1 r s' he hs1
          exact ⟨hs', ⟨t1 ++ t2, by rw [ht2, ht1, List.append_assoc]⟩⟩
        | false =>
          simp only [Option.some.injEq, Prod.mk.injEq] at he
          exact ⟨he.2 ▸ hs1, ⟨t1, he.2 ▸ ht1⟩⟩

lemma deepEqualF_mono (h : Heap) : ∀ fuel, CmpMono h (deepEqualF h fuel) := by
  intro fuel
  induction fuel with
  | zero =>
    intro a b s r s' he _
    simp [deepEqualF] at he
  | succ fuel ih =>
    intro a b s r s' he hs
    simp only [deepEqualF] at he
    split at he
    · -- identity / NaN hit
      simp only [Option.some.injEq, Prod.mk.injEq] at he
      exact ⟨he.2 ▸ hs, ⟨[], by simp [he.2]⟩⟩
    split at he
    case _ ia ib hnis =>
      split at he
      case _ da db hga hgb =>
        split at he
        · -- prototype mismatch
          simp only [Option.some.injEq, Prod.mk.injEq] at he
          exact ⟨he.2 ▸ hs, ⟨[], by simp [he.2]⟩⟩
        split at he
        case _ cached hlook =>
          -- memo hit
          simp only [Option.some.injEq, Prod.mk.injEq] at he
          exact ⟨he.2 ▸ hs, ⟨[], by simp [he.2]⟩⟩
        case _ hlook =>
          have hs1 : SeenInv h (s ++ [(ia, ib)]) :=
            seenInv_push hs (seenLookup_eq_none.mp hlook) (heapGet_lt hga)
          have hext : ∀ s'' , (SeenInv h s'' ∧ ∃ t, s'' = (s ++ [(ia, ib)]) ++ t) →
              SeenInv h s'' ∧ ∃ t, s'' = s ++ t := by
            rintro s'' ⟨hinv, t, ht⟩
            exact ⟨hinv, ⟨(ia, ib) :: t, by rw [ht, List.append_assoc]; rfl⟩⟩
          split at he
          · -- array branch
            split at he
            · simp only [Option.some.injEq, Prod.mk.injEq] at he
              exact hext s' ⟨he.2 ▸ hs1, ⟨[], by simp [he.2]⟩⟩
            · exact hext s' (eqListC_mono ih _ _ _ _ _ he hs1)
          · -- date branch
            simp only [Option.some.injEq, Prod.mk.injEq] at he
            exact hext s' ⟨he.2 ▸ hs1, ⟨[], by simp [he.2]⟩⟩
          · -- regexp branch
            simp only [Option.some.injEq, Prod.mk.injEq] at he
            exact hext s' ⟨he.2 ▸ hs1, ⟨[], by simp [he.2]⟩⟩
          · -- set branch
            split at he
            · simp only [Option.some.injEq, Prod.mk.injEq] at he
              exact hext s' ⟨he.2 ▸ hs1, ⟨[], by simp [he.2]⟩⟩
            · exact hext s' (setAllC_mono ih _ _ _ _ _ he hs1)
          · -- map branch
            split at he
            · simp only [Option.some.injEq, Prod.mk.injEq] at he
              exact hext s' ⟨he.2 ▸ hs1, ⟨[], by simp [he.2]⟩⟩
            · exact hext s' (mapAllC_mono ih _ _ _ _ _ he hs1)
          · -- record branch
            split at he
            case _ s2 hrec =>
              simp only [Option.some.injEq, Prod.mk.injEq] at he
              obtain ⟨hinv2, t2, ht2⟩ := recordC_mono ih _ _ _ _ _ hrec hs1
              exact hext s' ⟨he.2 ▸ hinv2, ⟨t2, he.2 ▸ ht2⟩⟩
            case _ hne =>
              exact hext s' (recordC_mono ih _ _ _ _ _ he hs1)
          · -- mismatched payloads with equal tags (unreachable)
            simp only [Option.some.injEq, Prod.mk.injEq] at he
            exact hext s' ⟨he.2 ▸ hs1, ⟨[], by simp [he.2]⟩⟩
      case _ hno =>
        simp only [Option.some.injEq, Prod.mk.injEq] at he
        exact ⟨he.2 ▸ hs, ⟨[], by simp [he.2]⟩⟩
    case _ hno =>
      simp only [Option.some.injEq, Prod.mk.injEq] at he
      exact ⟨he.2 ▸ hs, ⟨[], by simp [he.2]⟩⟩

/-! ## Totality: fuel `h.length + 1` always suffices

Each recursing frame records a fresh valid heap index in the memo before
descending, so the recursion depth is bounded by the heap size. -/

/-- Fuel-indexed totality of a comparison step. -/
def CmpTotal (h : Heap) (fuel : Nat) (k : Cmp) : Prop :=
  ∀ a b s, SeenInv h s → h.length < fuel + s.length → (k a b s).isSome

lemma length_le_of_append {s t s' : Seen} (hst : s' = s ++ t) :
    s.length ≤ s'.length := by
  subst hst; simp

lemma eqListC_total {h : Heap} {fuel : Nat} {k : Cmp}
    (hm : CmpMono h k) (hk : CmpTotal h fuel k) :
    ∀ as bs s, SeenInv h s → h.length < fuel + s.length →
      (eqListC k as bs s).isSome := by
  intro as
  induction as with
  | nil => intro bs s _ _; simp [eqListC]
  | cons a as ih =>
    intro bs s hs hf
    cases bs with
    | nil => simp [eqListC]
    | cons b bs =>
      have hstep := hk a b s hs hf
      obtain ⟨⟨r1, s1⟩, hsome⟩ := Option.isSome_iff_exists.mp hstep
      obtain ⟨hs1, t1, ht1⟩ := hm a b s r1 s1 hsome hs
      have hf1 : h.length < fuel + s1.length :=
        Nat.lt_of_lt_of_le hf (by have := length_le_of_append ht1; omega)
      simp only [eqListC, hsome]
      cases r1 with
      | true => exact ih bs s1 hs1 hf1
      | false => simp

lemma setFindC_total {h : Heap} {fuel : Nat} {k : Cmp}
    (hm : CmpMono h k) (hk : CmpTotal h fuel k) (av : JSVal) :
    ∀ bs s, SeenInv h s → h.length < fuel + s.length →
      (setFindC k av bs s).isSome := by
  intro bs
  induction bs with
  | nil => intro s _ _; simp [setFindC]
  | cons b bs ih =>
    intro s hs hf
    have hstep := hk av b s hs hf
    obtain ⟨⟨r1, s1⟩, hsome⟩ := Option.isSome_iff_exists.mp hstep
    obtain ⟨hs1, t1, ht1⟩ := hm av b s r1 s1 hsome hs
    have hf1 : h.length < fuel + s1.length :=
      Nat.lt_of_lt_of_le hf (by have := length_le_of_append ht1; omega)
    simp only [setFindC, hsome]
    cases r1 with
    | true => simp
    | false => exact ih s1 hs1 hf1

lemma setAllC_total {h : Heap} {fuel : Nat} {k : Cmp}
    (hm : CmpMono h k) (hk : CmpTotal h fuel k) :
    ∀ as bs s, SeenInv h s → h.length < fuel + s.length →
      (setAllC k as bs s).isSome := by
  intro as
  induction as with
  | nil => intro bs s _ _; simp [setAllC]
  | cons a as ih =>
    intro bs s hs hf
    have hstep := setFindC_total hm hk a bs s hs hf
    obtain ⟨⟨r1, s1⟩, hsome⟩ := Option.isSome_iff_exists.mp hstep
    obtain ⟨hs1, t1, ht1⟩ := setFindC_mono hm a bs s r1 s1 hsome hs
    have hf1 : h.length < fuel + s1.length :=
      Nat.lt_of_lt_of_le hf (by have := length_le_of_append ht1; omega)
    simp only [setAllC, hsome]
    cases r1 with
    | true => exact ih bs s1 hs1 hf1
    | false => simp

lemma mapFindC_total {h : Heap} {fuel : Nat} {k : Cmp}
    (hm : CmpMono h k) (hk : CmpTotal h fuel k) (ak av : JSVal) :
    ∀ bs s, SeenInv h s → h.length < fuel + s.length →
      (mapFindC k ak av bs s).isSome := by
  intro bs
  induction bs with
  | nil => intro s _ _; simp [mapFindC]
  | cons b bs ih =>
    obtain ⟨bk, bv⟩ := b
    intro s hs hf
    have hstep := hk ak bk s hs hf
    obtain ⟨⟨r1, s1⟩, hsome⟩ := Option.isSome_iff_exists.mp hstep
    obtain ⟨hs1, t1, ht1⟩ := hm ak bk s r1 s1 hsome hs
    have hf1 : h.length < fuel + s1.length :=
      Nat.lt_of_lt_of_le hf (by have := length_le_of_append ht1; omega)
    simp only [mapFindC, hsome]
    cases r1 with
    | true =>
      have hstep2 := hk av bv s1 hs1 hf1
      obtain ⟨⟨r2, s2⟩, hsome2⟩ := Option.isSome_iff_exists.mp hstep2
      obtain ⟨hs2, t2, ht2⟩ := hm av bv s1 r2 s2 hsome2 hs1
      have hf2 : h.length < fuel + s2.length :=
        Nat.lt_of_lt_of_le hf1 (by have := length_le_of_append ht2; omega)
      simp only [hsome2]
      cases r2 with
      | true => simp
      | false => exact ih s2 hs2 hf2
    | false => exact ih s1 hs1 hf1

lemma mapAllC_total {h : Heap} {fuel : Nat} {k : Cmp}
    (hm : CmpMono h k) (hk : CmpTotal h fuel k) :
    ∀ as bs s, SeenInv h s → h.length < fuel + s.length →
      (mapAllC k as bs s).isSome := by
  intro as
  induction as with
  | nil => intro bs s _ _; simp [mapAllC]
  | cons a as ih =>
    obtain ⟨ak, av⟩ := a
    intro bs s hs hf
    have hstep := mapFindC_total hm hk ak av bs s hs hf
    obtain ⟨⟨r1, s1⟩, hsome⟩ := Option.isSome_iff_exists.mp hstep
    obtain ⟨hs1, t1, ht1⟩ := mapFindC_mono hm ak av bs s r1 s1 hsome hs
    have hf1 : h.length < fuel + s1.length :=
      Nat.lt_of_lt_of_le hf (by have := length_le_of_append ht1; omega)
    simp only [mapAllC, hsome]
    cases r1 with
    | true => exact ih bs s1 hs1 hf1
    | false => simp

lemma recordC_total {h : Heap} {fuel : Nat} {k : Cmp}
    (hm : CmpMono h k) (hk : CmpTotal h fuel k) (fb : List (String × JSVal)) :
    ∀ fa s, SeenInv h s → h.length < fuel + s.length →
      (recordC k fb fa s).isSome := by
  intro fa
  induction fa with
  | nil => intro s _ _; simp [recordC]
  | cons p fa ih =>
    obtain ⟨key, av⟩ := p
    intro s hs hf
    cases hlk : protoLookup fb key with
    | none => simp [recordC, hlk]
    | some bv =>
      have hstep := hk av bv s hs hf
      obtain ⟨⟨r1, s1⟩, hsome⟩ := Option.isSome_iff_exists.mp hstep
      obtain ⟨hs1, t1, ht1⟩ := hm av bv s r1 s1 hsome hs
      have hf1 : h.length < fuel + s1.length :=
        Nat.lt_of_lt_of_le hf (by have := length_le_of_append ht1; omega)
      simp only [recordC, hlk, hsome]
      cases r1 with
      | true => exact ih s1 hs1 hf1
      | false => simp

lemma deepEqualF_total (h : Heap) :
    ∀ fuel, CmpTotal h fuel (deepEqualF h fuel) := by
  intro fuel
  induction fuel with
  | zero =>
    intro a b s hs hf
    exact absurd hf (by have := hs.length_le; omega)
  | succ fuel ih =>
    intro a b s hs hf
    simp only [deepEqualF]
    split
    · simp
    split
    case _ ia ib hnis =>
      cases hga : h.get? ia with
      | none => simp [hga]
      | some da =>
        cases hgb : h.get? ib with
        | none => simp [hga, hgb]
        | some db =>
          simp only [hga, hgb]
          split
          · simp
          cases hlook : seenLookup s ia with
          | some cached => simp [hlook]
          | none =>
            simp only [hlook]
            have hs1 : SeenInv h (s ++ [(ia, ib)]) :=
              seenInv_push hs (seenLookup_eq_none.mp hlook) (heapGet_lt hga)
            have hf1 : h.length < fuel + (s ++ [(ia, ib)]).length := by
              simp only [List.length_append, List.length_cons,
                List.length_nil]
              omega
            split
            · split
              · simp
              · exact eqListC_total (deepEqualF_mono h fuel) ih _ _ _ hs1 hf1
            · simp
            · simp
            · split
              · simp
              · exact setAllC_total (deepEqualF_mono h fuel) ih _ _ _ hs1 hf1
            · split
              · simp
              · exact mapAllC_total (deepEqualF_mono h fuel) ih _ _ _ hs1 hf1
            · -- record branch
              rename_i fa fb htag
              have hrec :=
                recordC_total (deepEqualF_mono h fuel) ih fb fa _ hs1 hf1
              obtain ⟨⟨r1, s1⟩, hsome⟩ := Option.isSome_iff_exists.mp hrec
              rw [hsome]
              cases r1 <;> simp
            · simp
    case _ hno => simp

/-- Core termination result: with fuel `h.length + 1` and a fresh memo,
the comparator always returns a verdict — no infinite recursion on any
value pair, cyclic structures included. -/
theorem deepEqualF_total_top (h : Heap) (a b : JSVal) :
    (deepEqualF h (h.length + 1) a b []).isSome :=
  deepEqualF_total h (h.length + 1) a b [] (seenInv_nil h) (by simp)

/-! ## Tree-shaped, set/map-free values

`chk h n v` returns the list of object ids reachable from `v` (root
first) when `v` is tree-shaped — every composite reference reachable from
`v` occurs exactly once, there are no set-like or map-like members, and
record keys are duplicate-free — and `none` otherwise (or when the fuel
`n` is too small).  On such values the memo of `deepEqual` can never hit,
which makes the comparator behave compositionally.  This is a
verification-side predicate, not part of the source. -/

/-- Key discipline required of a record for the compositional readings
below: own keys are duplicate-free and none of them names an
`Object.prototype` member (so `key in objB` can only hit own keys). -/
def recordKeysOk (fields : List (String × JSVal)) : Prop :=
  (fields.map Prod.fst).Nodup ∧
    ∀ k ∈ fields.map Prod.fst, k ∉ objectProtoKeys

instance (fields : List (String × JSVal)) : Decidable (recordKeysOk fields) := by
  unfold recordKeysOk
  exact instDecidableAnd

def chkListC (k : JSVal → Option (List Nat)) : List JSVal → Option (List Nat)
  | [] => some []
  | v :: vs =>
    match k v, chkListC k vs with
    | some l1, some l2 => some (l1 ++ l2)
    | _, _ => none

def chk (h : Heap) : Nat → JSVal → Option (List Nat)
  | 0, _ => none
  | n + 1, v =>
    match v with
    | .obj i =>
      match h.get? i with
      | some (.arr elems) =>
        match chkListC (chk h n) elems with
        | some ls => if (i :: ls).Nodup then some (i :: ls) else none
        | none => none
      | some (.date _) => some [i]
      | some (.regexp _ _) => some [i]
      | some (.record fields) =>
        if recordKeysOk fields then
          match chkListC (chk h n) (fields.map Prod.snd) with
          | some ls => if (i :: ls).Nodup then some (i :: ls) else none
          | none => none
        else none
      | _ => none
    | _ => some []

lemma nodup_lt_length_le {l : List Nat} {n : Nat}
    (hnd : l.Nodup) (hlt : ∀ i ∈ l, i < n) : l.length ≤ n := by
  have hcard : l.toFinset.card = l.length := List.toFinset_card_of_nodup hnd
  have hsub : l.toFinset ⊆ Finset.range n := by
    intro i hi
    simp only [List.mem_toFinset] at hi
    exact Finset.mem_range.mpr (hlt i hi)
  calc l.length = l.toFinset.card := hcard.symm
    _ ≤ (Finset.range n).card := Finset.card_le_card hsub
    _ = n := Finset.card_range _

lemma chk_nodup {h : Heap} {n : Nat} {a : JSVal} {la : List Nat}
    (hc : chk h n a = some la) : la.Nodup := by
  cases n with
  | zero => simp [chk] at hc
  | succ n =>
    cases a with
    | obj i =>
      simp only [chk] at hc
      split at hc
      case _ elems hga =>
        split at hc
        case _ ls hls =>
          split at hc
          · simp only [Option.some.injEq] at hc
            subst hc; assumption
          · exact absurd hc (by simp)
        case _ => exact absurd hc (by simp)
      case _ t hga => simp only [Option.some.injEq] at hc; subst hc; simp
      case _ so fl hga =>
        simp only [Option.some.injEq] at hc; subst hc; simp
      case _ fields hga =>
        split at hc
        · split at hc
          case _ ls hls =>
            split at hc
            · simp only [Option.some.injEq] at hc
              subst hc; assumption
            · exact absurd hc (by simp)
          case _ => exact absurd hc (by simp)
        · exact absurd hc (by simp)
      case _ => exact absurd hc (by simp)
    | undef => simp only [chk, Option.some.injEq] at hc; subst hc; simp
    | vnull => simp only [chk, Option.some.injEq] at hc; subst hc; simp
    | bool b => simp only [chk, Option.some.injEq] at hc; subst hc; simp
    | num m => simp only [chk, Option.some.injEq] at hc; subst hc; simp
    | str st => simp only [chk, Option.some.injEq] at hc; subst hc; simp
    | fn fid => simp only [chk, Option.some.injEq] at hc; subst hc; simp
    | builtin nm => simp only [chk, Option.some.injEq] at hc; subst hc; simp

lemma chkListC_bound {h : Heap} {k : JSVal → Option (List Nat)}
    (hb : ∀ v lv, k v = some lv → ∀ i ∈ lv, i < h.length) :
    ∀ vs ls, chkListC k vs = some ls → ∀ i ∈ ls, i < h.length := by
  intro vs
  induction vs with
  | nil => intro ls hls i hi; simp [chkListC] at hls; subst hls; simp at hi
  | cons v vs ih =>
    intro ls hls i hi
    simp only [chkListC] at hls
    cases h1 : k v with
    | none => rw [h1] at hls; exact absurd hls (by simp)
    | some l1 =>
      cases h2 : chkListC k vs with
      | none => rw [h1, h2] at hls; exact absurd hls (by simp)
      | some l2 =>
        rw [h1, h2] at hls
        simp only [Option.some.injEq] at hls
        subst hls
        rcases List.mem_append.mp hi with hi | hi
        · exact hb v l1 h1 i hi
        · exact ih l2 h2 i hi

lemma chk_bound {h : Heap} :
    ∀ n {a : JSVal} {la : List Nat},
      chk h n a = some la → ∀ i ∈ la, i < h.length := by
  intro n
  induction n with
  | zero => intro a la hc; simp [chk] at hc
  | succ n ih =>
    intro a la hc i hi
    cases a with
    | obj j =>
      simp only [chk] at hc
      split at hc
      case _ elems hga =>
        split at hc
        case _ ls hls =>
          split at hc
          · simp only [Option.some.injEq] at hc
            subst hc
            rcases List.mem_cons.mp hi with hji | hmem
            · exact hji ▸ heapGet_lt hga
            · exact chkListC_bound (fun v lv hv => ih hv) elems ls hls i hmem
          · exact absurd hc (by simp)
        case _ => exact absurd hc (by simp)
      case _ t hga =>
        simp only [Option.some.injEq] at hc; subst hc
        simp only [List.mem_singleton] at hi
        exact hi ▸ heapGet_lt hga
      case _ so fl hga =>
        simp only [Option.some.injEq] at hc; subst hc
        simp only [List.mem_singleton] at hi
        exact hi ▸ heapGet_lt hga
      case _ fields hga =>
        split at hc
        · split at hc
          case _ ls hls =>
            split at hc
            · simp only [Option.some.injEq] at hc
              subst hc
              rcases List.mem_cons.mp hi with hji | hmem
              · exact hji ▸ heapGet_lt hga
              · exact chkListC_bound (fun v lv hv => ih hv) _ ls hls i hmem
            · exact absurd hc (by simp)
          case _ => exact absurd hc (by simp)
        · exact absurd hc (by simp)
      case _ => exact absurd hc (by simp)
    | undef => simp only [chk, Option.some.injEq] at hc; subst hc; simp at hi
    | vnull => simp only [chk, Option.some.injEq] at hc; subst hc; simp at hi
    | bool b => simp only [chk, Option.some.injEq] at hc; subst hc; simp at hi
    | num m => simp only [chk, Option.some.injEq] at hc; subst hc; simp at hi
    | str st => simp only [chk, Option.some.injEq] at hc; subst hc; simp at hi
    | fn fid => simp only [chk, Option.some.injEq] at hc; subst hc; simp at hi
    | builtin nm =>
      simp only [chk, Option.some.injEq] at hc; subst hc; simp at hi

lemma chk_length_le {h : Heap} {n : Nat} {a : JSVal} {la : List Nat}
    (hc : chk h n a = some la) : la.length ≤ h.length :=
  nodup_lt_length_le (chk_nodup hc) (chk_bound n hc)

/-! ## Compositional behavior of the comparator on tree-shaped values -/

/-- Index-aligned conjunction of top-level comparisons (the value the
array branch computes on tree-shaped input). -/
def listEqBool (h : Heap) : List JSVal → List JSVal → Bool
  | [], _ => true
  | _ :: _, [] => false
  | v :: vs, w :: ws => deepEqual h v w && listEqBool h vs ws

/-- Keys-of-A loop of the record branch, with top-level comparisons;
membership and access go through the prototype chain like the source's
`key in objB` / `objB[key]`. -/
def recordEqBool (h : Heap) (fb : List (String × JSVal)) :
    List (String × JSVal) → Bool
  | [] => true
  | (key, av) :: rest =>
    match protoLookup fb key with
    | none => false
    | some bv => deepEqual h av bv && recordEqBool h fb rest

lemma deepEqualF_eval_true {h : Heap} {f : Nat} {a b : JSVal} {s : Seen}
    (hid : objIs a b = true) : deepEqualF h (f + 1) a b s = some (true, s) := by
  simp [deepEqualF, hid]

lemma deepEqual_of_objIs {h : Heap} {a b : JSVal}
    (hid : objIs a b = true) : deepEqual h a b = true := by
  rw [deepEqual, deepEqualF_eval_true hid]

lemma deepEqualF_eval_nonobj {h : Heap} {f : Nat} {a b : JSVal} {s : Seen}
    (hno : ∀ i j, ¬(a = .obj i ∧ b = .obj j)) (hid : objIs a b = false) :
    deepEqualF h (f + 1) a b s = some (false, s) := by
  simp only [deepEqualF, hid, Bool.false_eq_true, if_false]
  cases a <;> cases b <;> first
    | rfl
    | exact absurd ⟨rfl, rfl⟩ (hno _ _)

lemma deepEqual_eval_nonobj {h : Heap} {a b : JSVal}
    (hno : ∀ i j, ¬(a = .obj i ∧ b = .obj j)) (hid : objIs a b = false) :
    deepEqual h a b = false := by
  rw [deepEqual, deepEqualF_eval_nonobj hno hid]

/-- On a tree-shaped left value whose node list avoids the current memo,
any sufficiently fueled run returns the canonical (fresh-memo) verdict
and only appends nodes of the left tree to the memo. -/
def CanonOn (h : Heap) (n : Nat) : Prop :=
  ∀ a la, chk h n a = some la → ∀ b fuel s, la.length < fuel →
    (∀ i ∈ la, i ∉ seenKeys s) →
    ∃ t, deepEqualF h fuel a b s = some (deepEqual h a b, s ++ t) ∧
      ∀ i ∈ seenKeys t, i ∈ la

lemma eqListC_canon {h : Heap} {n : Nat} (hC : CanonOn h n) :
    ∀ vs ls ws s fuel, chkListC (chk h n) vs = some ls →
      ls.length < fuel → (∀ i ∈ ls, i ∉ seenKeys s) → ls.Nodup →
      ∃ t, eqListC (deepEqualF h fuel) vs ws s
          = some (listEqBool h vs ws, s ++ t) ∧ ∀ i ∈ seenKeys t, i ∈ ls := by
  intro vs
  induction vs with
  | nil =>
    intro ls ws s fuel _ _ _ _
    exact ⟨[], by simp [eqListC, listEqBool], by simp [seenKeys]⟩
  | cons v vs ih =>
    intro ls ws s fuel hls hfuel havoid hnd
    simp only [chkListC] at hls
    cases h1 : chk h n v with
    | none => rw [h1] at hls; exact absurd hls (by simp)
    | some l1 =>
      cases h2 : chkListC (chk h n) vs with
      | none => rw [h1, h2] at hls; exact absurd hls (by simp)
      | some l2 =>
        rw [h1, h2] at hls
        simp only [Option.some.injEq] at hls
        subst hls
        cases ws with
        | nil =>
          exact ⟨[], by simp [eqListC, listEqBool], by simp [seenKeys]⟩
        | cons w ws =>
          have hf1 : l1.length < fuel := by
            have := List.length_append l1 l2 ▸ hfuel; omega
          have hav1 : ∀ i ∈ l1, i ∉ seenKeys s := fun i hi =>
            havoid i (List.mem_append.mpr (Or.inl hi))
          obtain ⟨t1, ht1, hsub1⟩ := hC v l1 h1 w fuel s hf1 hav1
          simp only [eqListC, ht1, listEqBool]
          cases hd : deepEqual h v w with
          | false =>
            exact ⟨t1, by simp, fun i hi =>
              List.mem_append.mpr (Or.inl (hsub1 i hi))⟩
          | true =>
            have hf2 : l2.length < fuel := by
              have := List.length_append l1 l2 ▸ hfuel; omega
            have hav2 : ∀ i ∈ l2, i ∉ seenKeys (s ++ t1) := by
              intro i hi
              rw [seenKeys_append, List.mem_append]
              rintro (hin | hin)
              · exact havoid i (List.mem_append.mpr (Or.inr hi)) hin
              · have hi1 : i ∈ l1 := hsub1 i hin
                have : (l1 ++ l2).Nodup := hnd
                rw [List.nodup_append] at this
                exact this.2.2 hi1 hi
            obtain ⟨t2, ht2, hsub2⟩ :=
              ih l2 ws (s ++ t1) fuel h2 hf2 hav2
                ((List.nodup_append.mp hnd).2.1)
            refine ⟨t1 ++ t2, ?_, ?_⟩
            · simp only [ht2, Bool.true_and, List.append_assoc]
            · intro i hi
              rw [seenKeys_append, List.mem_append] at hi
              rcases hi with hi | hi
              · exact List.mem_append.mpr (Or.inl (hsub1 i hi))
              · exact List.mem_append.mpr (Or.inr (hsub2 i hi))

lemma recordC_canon {h : Heap} {n : Nat} (hC : CanonOn h n) :
    ∀ fa ls (fb : List (String × JSVal)) s fuel,
      chkListC (chk h n) (fa.map Prod.snd) = some ls →
      ls.length < fuel → (∀ i ∈ ls, i ∉ seenKeys s) → ls.Nodup →
      ∃ t, recordC (deepEqualF h fuel) fb fa s
          = some (recordEqBool h fb fa, s ++ t) ∧ ∀ i ∈ seenKeys t, i ∈ ls := by
  intro fa
  induction fa with
  | nil =>
    intro ls fb s fuel _ _ _ _
    exact ⟨[], by simp [recordC, recordEqBool], by simp [seenKeys]⟩
  | cons p fa ih =>
    obtain ⟨key, av⟩ := p
    intro ls fb s fuel hls hfuel havoid hnd
    simp only [List.map_cons, chkListC] at hls
    cases h1 : chk h n av with
    | none => rw [h1] at hls; exact absurd hls (by simp)
    | some l1 =>
      cases h2 : chkListC (chk h n) (fa.map Prod.snd) with
      | none => rw [h1, h2] at hls; exact absurd hls (by simp)
      | some l2 =>
        rw [h1, h2] at hls
        simp only [Option.some.injEq] at hls
        subst hls
        cases hlk : protoLookup fb key with
        | none =>
          exact ⟨[], by simp [recordC, recordEqBool, hlk], by simp [seenKeys]⟩
        | some bv =>
          have hf1 : l1.length < fuel := by
            have := List.length_append l1 l2 ▸ hfuel; omega
          have hav1 : ∀ i ∈ l1, i ∉ seenKeys s := fun i hi =>
            havoid i (List.mem_append.mpr (Or.inl hi))
          obtain ⟨t1, ht1, hsub1⟩ := hC av l1 h1 bv fuel s hf1 hav1
          simp only [recordC, hlk, ht1, recordEqBool]
          cases hd : deepEqual h av bv with
          | false =>
            exact ⟨t1, by simp, fun i hi =>
              List.mem_append.mpr (Or.inl (hsub1 i hi))⟩
          | true =>
            have hf2 : l2.length < fuel := by
              have := List.length_append l1 l2 ▸ hfuel; omega
            have hav2 : ∀ i ∈ l2, i ∉ seenKeys (s ++ t1) := by
              intro i hi
              rw [seenKeys_append, List.mem_append]
              rintro (hin | hin)
              · exact havoid i (List.mem_append.mpr (Or.inr hi)) hin
              · have hi1 : i ∈ l1 := hsub1 i hin
                have hnd2 : (l1 ++ l2).Nodup := hnd
                rw [List.nodup_append] at hnd2
                exact hnd2.2.2 hi1 hi
            obtain ⟨t2, ht2, hsub2⟩ :=
              ih l2 fb (s ++ t1) fuel h2 hf2 hav2
                ((List.nodup_append.mp hnd).2.1)
            refine ⟨t1 ++ t2, ?_, ?_⟩
            · simp only [ht2, Bool.true_and, List.append_assoc]
            · intro i hi
              rw [seenKeys_append, List.mem_append] at hi
              rcases hi with hi | hi
              · exact List.mem_append.mpr (Or.inl (hsub1 i hi))
              · exact List.mem_append.mpr (Or.inr (hsub2 i hi))

lemma deepEqual_unfold_some {h : Heap} {a b : JSVal} {r : Bool} {t : Seen}
    (he : deepEqualF h (h.length + 1) a b [] = some (r, t)) :
    deepEqual h a b = r := by
  rw [deepEqual, he]

lemma objIs_obj_ne {i j : Nat} (hij : i ≠ j) :
    objIs (.obj i) (.obj j) = false := by
  simp [objIs, hij]

lemma canon_prim_left {h : Heap} {a b : JSVal} (ha : ∀ i, a ≠ JSVal.obj i)
    (f : Nat) (s : Seen) :
    deepEqualF h (f + 1) a b s = some (deepEqual h a b, s) := by
  cases hid : objIs a b with
  | true => rw [deepEqualF_eval_true hid, deepEqual_of_objIs hid]
  | false =>
    rw [deepEqualF_eval_nonobj (fun i j hij => ha i hij.1) hid,
      deepEqual_eval_nonobj (fun i j hij => ha i hij.1) hid]

lemma canon_prim_right {h : Heap} {a b : JSVal} (hb : ∀ j, b ≠ JSVal.obj j)
    (f : Nat) (s : Seen) :
    deepEqualF h (f + 1) a b s = some (deepEqual h a b, s) := by
  cases hid : objIs a b with
  | true => rw [deepEqualF_eval_true hid, deepEqual_of_objIs hid]
  | false =>
    rw [deepEqualF_eval_nonobj (fun i j hij => hb j hij.2) hid,
      deepEqual_eval_nonobj (fun i j hij => hb j hij.2) hid]

lemma deepEqualF_eval_noright {h : Heap} {f i j : Nat} {s : Seen}
    (hij : i ≠ j) (hgb : h.get? j = none) :
    deepEqualF h (f + 1) (.obj i) (.obj j) s = some (false, s) := by
  simp only [deepEqualF, objIs_obj_ne hij, Bool.false_eq_true, if_false, hgb]
  cases h.get? i <;> rfl

lemma deepEqualF_eval_tagne {h : Heap} {f i j : Nat} {s : Seen}
    {da db : ObjData} (hij : i ≠ j) (hga : h.get? i = some da)
    (hgb : h.get? j = some db) (htag : da.tag ≠ db.tag) :
    deepEqualF h (f + 1) (.obj i) (.obj j) s = some (false, s) := by
  rw [List.get?_eq_getElem?] at hga hgb
  simp [deepEqualF, objIs_obj_ne hij, hga, hgb, htag]

lemma deepEqualF_eval_date {h : Heap} {f i j : Nat} {s : Seen} {ta tb : Int}
    (hij : i ≠ j) (hga : h.get? i = some (.date ta))
    (hgb : h.get? j = some (.date tb)) (hlk : seenLookup s i = none) :
    deepEqualF h (f + 1) (.obj i) (.obj j) s
      = some (decide (ta = tb), s ++ [(i, j)]) := by
  rw [List.get?_eq_getElem?] at hga hgb
  simp [deepEqualF, objIs_obj_ne hij, hga, hgb, ObjData.tag, hlk]

lemma deepEqualF_eval_regexp {h : Heap} {f i j : Nat} {s : Seen}
    {sa fla sb flb : String}
    (hij : i ≠ j) (hga : h.get? i = some (.regexp sa fla))
    (hgb : h.get? j = some (.regexp sb flb)) (hlk : seenLookup s i = none) :
    deepEqualF h (f + 1) (.obj i) (.obj j) s
      = some (decide (sa = sb) && decide (fla = flb), s ++ [(i, j)]) := by
  rw [List.get?_eq_getElem?] at hga hgb
  simp [deepEqualF, objIs_obj_ne hij, hga, hgb, ObjData.tag, hlk]

lemma deepEqualF_eval_arr {h : Heap} {f i j : Nat} {s : Seen}
    {elems bs : List JSVal}
    (hij : i ≠ j) (hga : h.get? i = some (.arr elems))
    (hgb : h.get? j = some (.arr bs)) (hlk : seenLookup s i = none) :
    deepEqualF h (f + 1) (.obj i) (.obj j) s
      = if elems.length = bs.length
        then eqListC (deepEqualF h f) elems bs (s ++ [(i, j)])
        else some (false, s ++ [(i, j)]) := by
  rw [List.get?_eq_getElem?] at hga hgb
  by_cases hlen : elems.length = bs.length <;>
    simp [deepEqualF, objIs_obj_ne hij, hga, hgb, ObjData.tag, hlk, hlen]

lemma deepEqualF_eval_record {h : Heap} {f i j : Nat} {s : Seen}
    {fa fb : List (String × JSVal)}
    (hij : i ≠ j) (hga : h.get? i = some (.record fa))
    (hgb : h.get? j = some (.record fb)) (hlk : seenLookup s i = none) :
    deepEqualF h (f + 1) (.obj i) (.obj j) s
      = match recordC (deepEqualF h f) fb fa (s ++ [(i, j)]) with
        | some (true, s') => some (decide (fa.length = fb.length), s')
        | r => r := by
  rw [List.get?_eq_getElem?] at hga hgb
  simp [deepEqualF, objIs_obj_ne hij, hga, hgb, ObjData.tag, hlk]

/-- Shared case of the canonicalization induction: prototype mismatch
answers `false` in any memo state and in the canonical run alike. -/
lemma canon_goal_tagne {h : Heap} {f i j : Nat} {s : Seen} {la : List Nat}
    {da db : ObjData} (hij : i ≠ j) (hga : h.get? i = some da)
    (hgb : h.get? j = some db) (htag : da.tag ≠ db.tag) :
    ∃ t, deepEqualF h (f + 1) (.obj i) (.obj j) s
        = some (deepEqual h (.obj i) (.obj j), s ++ t) ∧
      ∀ x ∈ seenKeys t, x ∈ la := by
  refine ⟨[], ?_, by simp [seenKeys]⟩
  rw [deepEqualF_eval_tagne hij hga hgb htag, List.append_nil,
    deepEqual_unfold_some (deepEqualF_eval_tagne hij hga hgb htag)]

lemma canonOn_zero (h : Heap) : CanonOn h 0 := by
  intro a la hc
  simp [chk] at hc

lemma canonOn_succ {h : Heap} {n : Nat} (hC : CanonOn h n) :
    CanonOn h (n + 1) := by
  intro a la hchk b fuel s hfuel havoid
  by_cases haobj : ∃ i, a = JSVal.obj i
  case neg =>
    -- primitive or function on the left: no memo write, verdict from `objIs`
    have hla : la = [] := by
      cases a with
      | obj i => exact absurd ⟨i, rfl⟩ haobj
      | undef => simpa [chk, eq_comm] using hchk
      | vnull => simpa [chk, eq_comm] using hchk
      | bool x => simpa [chk, eq_comm] using hchk
      | num x => simpa [chk, eq_comm] using hchk
      | str x => simpa [chk, eq_comm] using hchk
      | fn x => simpa [chk, eq_comm] using hchk
      | builtin x => simpa [chk, eq_comm] using hchk
    subst hla
    obtain ⟨f, rfl⟩ : ∃ f, fuel = f + 1 := by
      cases fuel with
      | zero => simp at hfuel
      | succ f => exact ⟨f, rfl⟩
    exact ⟨[], by
      rw [canon_prim_left (fun i hi => haobj ⟨i, hi⟩) f s, List.append_nil],
      by simp [seenKeys]⟩
  case pos =>
  obtain ⟨i, rfl⟩ := haobj
  obtain ⟨f, rfl⟩ : ∃ f, fuel = f + 1 := by
    cases fuel with
    | zero => simp at hfuel
    | succ f => exact ⟨f, rfl⟩
  by_cases hbobj : ∃ j, b = JSVal.obj j
  case neg =>
    have hb : ∀ j, b ≠ JSVal.obj j := fun j hj => hbobj ⟨j, hj⟩
    exact ⟨[], by rw [canon_prim_right hb f s, List.append_nil],
      by simp [seenKeys]⟩
  case pos =>
  obtain ⟨j, rfl⟩ := hbobj
  by_cases hij : i = j
  · subst hij
    exact ⟨[], by
      rw [deepEqualF_eval_true (by simp [objIs]),
        deepEqual_of_objIs (by simp [objIs]), List.append_nil],
      by simp [seenKeys]⟩
  -- distinct objects: unfold the chk certificate for the left value
  have hmemi : i ∈ la := by
    simp only [chk] at hchk
    split at hchk
    case _ elems hga =>
      split at hchk
      case _ ls hls =>
        split at hchk
        · simp only [Option.some.injEq] at hchk; subst hchk; simp
        · exact absurd hchk (by simp)
      case _ => exact absurd hchk (by simp)
    case _ t hga => simp only [Option.some.injEq] at hchk; subst hchk; simp
    case _ so fl hga =>
      simp only [Option.some.injEq] at hchk; subst hchk; simp
    case _ fields hga =>
      split at hchk
      · split at hchk
        case _ ls hls =>
          split at hchk
          · simp only [Option.some.injEq] at hchk; subst hchk; simp
          · exact absurd hchk (by simp)
        case _ => exact absurd hchk (by simp)
      · exact absurd hchk (by simp)
    case _ => exact absurd hchk (by simp)
  have hlks : seenLookup s i = none :=
    seenLookup_eq_none.mpr (havoid i hmemi)
  cases hgb : h.get? j with
  | none =>
    exact ⟨[], by
      rw [deepEqualF_eval_noright hij hgb, List.append_nil,
        deepEqual_unfold_some (t := []) (deepEqualF_eval_noright hij hgb)],
      by simp [seenKeys]⟩
  | some db =>
  -- left data from the chk certificate
  simp only [chk] at hchk
  split at hchk
  case _ elems hga =>
    -- array node
    split at hchk
    case _ ls hls =>
      split at hchk
      case _ hnd =>
        replace hchk : i :: ls = la := Option.some.inj hchk
        subst hchk
        cases db with
        | arr bs =>
          by_cases hlen : elems.length = bs.length
          · -- lengths match: run the element loop in both worlds
            have hquiet : ∀ (f' : Nat) (s' : Seen), seenLookup s' i = none →
                (∀ x ∈ ls, x ∉ seenKeys s') → ls.length < f' →
                ∃ t', deepEqualF h (f' + 1) (.obj i) (.obj j) s'
                    = some (listEqBool h elems bs, s' ++ (i, j) :: t') ∧
                  ∀ x ∈ seenKeys t', x ∈ ls := by
              intro f' s' hlk' hav' hf'
              have hav2 : ∀ x ∈ ls, x ∉ seenKeys (s' ++ [(i, j)]) := by
                intro x hx
                rw [seenKeys_append, List.mem_append]
                rintro (hin | hin)
                · exact hav' x hx hin
                · have : x = i := by simpa [seenKeys] using hin
                  subst this
                  exact (List.nodup_cons.mp hnd).1 hx
              obtain ⟨t', ht', hsub'⟩ :=
                eqListC_canon hC elems ls bs (s' ++ [(i, j)]) f' hls hf'
                  hav2 (List.nodup_cons.mp hnd).2
              refine ⟨t', ?_, hsub'⟩
              rw [deepEqualF_eval_arr hij hga hgb hlk', if_pos hlen, ht',
                List.append_assoc]
              rfl
            have hlslen : ls.length < h.length := by
              have hle : (i :: ls).length ≤ h.length :=
                nodup_lt_length_le hnd
                  (chk_bound (n + 1) (a := JSVal.obj i) (by
                    simp only [chk, hga, hls]
                    rw [if_pos hnd]))
              simp only [List.length_cons] at hle
              omega
            obtain ⟨t0, ht0, _⟩ :=
              hquiet h.length [] (by simp [seenLookup]) (by simp [seenKeys])
                hlslen
            have hcanon := deepEqual_unfold_some (by
              simpa using ht0)
            have hfls : ls.length < f := by
              simp only [List.length_cons] at hfuel; omega
            obtain ⟨t', ht', hsub'⟩ :=
              hquiet f s hlks (fun x hx =>
                havoid x (List.mem_cons.mpr (Or.inr hx))) hfls
            refine ⟨(i, j) :: t', ?_, ?_⟩
            · rw [ht', hcanon]
            · intro x hx
              rcases (by simpa [seenKeys] using hx : x = i ∨ x ∈ seenKeys t')
                with hin | hin
              · exact hin ▸ List.mem_cons_self i ls
              · exact List.mem_cons.mpr (Or.inr (hsub' x hin))
          · -- lengths differ: both worlds answer false immediately
            have hrun : ∀ (f' : Nat) (s' : Seen), seenLookup s' i = none →
                deepEqualF h (f' + 1) (.obj i) (.obj j) s'
                  = some (false, s' ++ [(i, j)]) := by
              intro f' s' hlk'
              rw [deepEqualF_eval_arr hij hga hgb hlk', if_neg hlen]
            have hcanon := deepEqual_unfold_some
              (by simpa using hrun h.length [] (by simp [seenLookup]))
            refine ⟨[(i, j)], ?_, ?_⟩
            · rw [hrun f s hlks, hcanon]
            · intro x hx
              have : x = i := by simpa [seenKeys] using hx
              exact this ▸ List.mem_cons_self i ls
        | date tb =>
          exact canon_goal_tagne hij hga hgb (by simp [ObjData.tag])
        | regexp sb flb =>
          exact canon_goal_tagne hij hga hgb (by simp [ObjData.tag])
        | set bs =>
          exact canon_goal_tagne hij hga hgb (by simp [ObjData.tag])
        | map bm =>
          exact canon_goal_tagne hij hga hgb (by simp [ObjData.tag])
        | record fb =>
          exact canon_goal_tagne hij hga hgb (by simp [ObjData.tag])
      case _ => exact absurd hchk (by simp)
    case _ => exact absurd hchk (by simp)
  case _ ta hga =>
    -- date node on the left
    simp only [Option.some.injEq] at hchk
    subst hchk
    cases db with
    | date tb =>
      have hrun : ∀ (f' : Nat) (s' : Seen), seenLookup s' i = none →
          deepEqualF h (f' + 1) (.obj i) (.obj j) s'
            = some (decide (ta = tb), s' ++ [(i, j)]) :=
        fun f' s' hlk' => deepEqualF_eval_date hij hga hgb hlk'
      have hcanon := deepEqual_unfold_some
        (by simpa using hrun h.length [] (by simp [seenLookup]))
      refine ⟨[(i, j)], ?_, ?_⟩
      · rw [hrun f s hlks, hcanon]
      · intro x hx
        have : x = i := by simpa [seenKeys] using hx
        simp [this]
    | arr bs => exact canon_goal_tagne hij hga hgb (by simp [ObjData.tag])
    | regexp sb flb =>
      exact canon_goal_tagne hij hga hgb (by simp [ObjData.tag])
    | set bs => exact canon_goal_tagne hij hga hgb (by simp [ObjData.tag])
    | map bm => exact canon_goal_tagne hij hga hgb (by simp [ObjData.tag])
    | record fb => exact canon_goal_tagne hij hga hgb (by simp [ObjData.tag])
  case _ sa fla hga =>
    -- regexp node on the left
    simp only [Option.some.injEq] at hchk
    subst hchk
    cases db with
    | regexp sb flb =>
      have hrun : ∀ (f' : Nat) (s' : Seen), seenLookup s' i = none →
          deepEqualF h (f' + 1) (.obj i) (.obj j) s'
            = some (decide (sa = sb) && decide (fla = flb), s' ++ [(i, j)]) :=
        fun f' s' hlk' => deepEqualF_eval_regexp hij hga hgb hlk'
      have hcanon := deepEqual_unfold_some
        (by simpa using hrun h.length [] (by simp [seenLookup]))
      refine ⟨[(i, j)], ?_, ?_⟩
      · rw [hrun f s hlks, hcanon]
      · intro x hx
        have : x = i := by simpa [seenKeys] using hx
        simp [this]
    | arr bs => exact canon_goal_tagne hij hga hgb (by simp [ObjData.tag])
    | date tb => exact canon_goal_tagne hij hga hgb (by simp [ObjData.tag])
    | set bs => exact canon_goal_tagne hij hga hgb (by simp [ObjData.tag])
    | map bm => exact canon_goal_tagne hij hga hgb (by simp [ObjData.tag])
    | record fb => exact canon_goal_tagne hij hga hgb (by simp [ObjData.tag])
  case _ fields hga =>
    -- record node on the left
    split at hchk
    case _ hkeys =>
      split at hchk
      case _ ls hls =>
        split at hchk
        case _ hnd =>
          replace hchk : i :: ls = la := Option.some.inj hchk
          subst hchk
          cases db with
          | record fb =>
            have hquiet : ∀ (f' : Nat) (s' : Seen), seenLookup s' i = none →
                (∀ x ∈ ls, x ∉ seenKeys s') → ls.length < f' →
                ∃ t', deepEqualF h (f' + 1) (.obj i) (.obj j) s'
                    = some (recordEqBool h fb fields &&
                        decide (fields.length = fb.length),
                      s' ++ (i, j) :: t') ∧
                  ∀ x ∈ seenKeys t', x ∈ ls := by
              intro f' s' hlk' hav' hf'
              have hav2 : ∀ x ∈ ls, x ∉ seenKeys (s' ++ [(i, j)]) := by
                intro x hx
                rw [seenKeys_append, List.mem_append]
                rintro (hin | hin)
                · exact hav' x hx hin
                · have : x = i := by simpa [seenKeys] using hin
                  subst this
                  exact (List.nodup_cons.mp hnd).1 hx
              obtain ⟨t', ht', hsub'⟩ :=
                recordC_canon hC fields ls fb (s' ++ [(i, j)]) f' hls hf'
                  hav2 (List.nodup_cons.mp hnd).2
              refine ⟨t', ?_, hsub'⟩
              rw [deepEqualF_eval_record hij hga hgb hlk', ht']
              cases hrb : recordEqBool h fb fields with
              | true => simp [List.append_assoc]
              | false => simp [List.append_assoc]
            have hlslen : ls.length < h.length := by
              have hle : (i :: ls).length ≤ h.length :=
                nodup_lt_length_le hnd
                  (chk_bound (n + 1) (a := JSVal.obj i) (by
                    simp only [chk, hga, hls]
                    rw [if_pos hkeys, if_pos hnd]))
              simp only [List.length_cons] at hle
              omega
            obtain ⟨t0, ht0, _⟩ :=
              hquiet h.length [] (by simp [seenLookup]) (by simp [seenKeys])
                hlslen
            have hcanon := deepEqual_unfold_some (by simpa using ht0)
            have hfls : ls.length < f := by
              simp only [List.length_cons] at hfuel; omega
            obtain ⟨t', ht', hsub'⟩ :=
              hquiet f s hlks (fun x hx =>
                havoid x (List.mem_cons.mpr (Or.inr hx))) hfls
            refine ⟨(i, j) :: t', ?_, ?_⟩
            · rw [ht', hcanon]
            · intro x hx
              rcases (by simpa [seenKeys] using hx : x = i ∨ x ∈ seenKeys t')
                with hin | hin
              · exact hin ▸ List.mem_cons_self i ls
              · exact List.mem_cons.mpr (Or.inr (hsub' x hin))
          | arr bs => exact canon_goal_tagne hij hga hgb (by simp [ObjData.tag])
          | date tb =>
            exact canon_goal_tagne hij hga hgb (by simp [ObjData.tag])
          | regexp sb flb =>
            exact canon_goal_tagne hij hga hgb (by simp [ObjData.tag])
          | set bs => exact canon_goal_tagne hij hga hgb (by simp [ObjData.tag])
          | map bm => exact canon_goal_tagne hij hga hgb (by simp [ObjData.tag])
        case _ => exact absurd hchk (by simp)
      case _ => exact absurd hchk (by simp)
    case _ => exact absurd hchk (by simp)
  case _ => exact absurd hchk (by simp)

lemma canonOn_all (h : Heap) : ∀ n, CanonOn h n := by
  intro n
  induction n with
  | zero => exact canonOn_zero h
  | succ n ih => exact canonOn_succ ih

/-! ## Association-list facts for record comparison -/

lemma fieldLookup_mem {f : List (String × JSVal)} {k : String} {v : JSVal}
    (hf : fieldLookup f k = some v) : (k, v) ∈ f := by
  induction f with
  | nil => simp [fieldLookup] at hf
  | cons p rest ih =>
    obtain ⟨k', v'⟩ := p
    by_cases hk : k' = k
    · subst hk
      simp only [fieldLookup, if_true, eq_self_iff_true, ite_true,
        Option.some.injEq] at hf
      subst hf; exact List.mem_cons_self _ _
    · simp only [fieldLookup, if_neg hk] at hf
      exact List.mem_cons.mpr (Or.inr (ih hf))

lemma mem_keys_of_lookup {f : List (String × JSVal)} {k : String} {v : JSVal}
    (hf : fieldLookup f k = some v) : k ∈ f.map Prod.fst :=
  List.mem_map.mpr ⟨(k, v), fieldLookup_mem hf, rfl⟩

lemma lookup_isSome_of_mem_keys {f : List (String × JSVal)} {k : String}
    (hk : k ∈ f.map Prod.fst) : ∃ v, fieldLookup f k = some v := by
  induction f with
  | nil => simp at hk
  | cons p rest ih =>
    obtain ⟨k', v'⟩ := p
    by_cases hkk : k' = k
    · subst hkk
      exact ⟨v', by simp [fieldLookup]⟩
    · simp only [List.map_cons, List.mem_cons] at hk
      rcases hk with hk | hk
      · exact absurd hk.symm hkk
      · obtain ⟨v, hv⟩ := ih hk
        exact ⟨v, by simpa [fieldLookup, hkk] using hv⟩

lemma lookup_of_mem_nodup {f : List (String × JSVal)} {k : String} {v : JSVal}
    (hnd : (f.map Prod.fst).Nodup) (hm : (k, v) ∈ f) :
    fieldLookup f k = some v := by
  induction f with
  | nil => simp at hm
  | cons p rest ih =>
    obtain ⟨k', v'⟩ := p
    simp only [List.map_cons, List.nodup_cons] at hnd
    rcases List.mem_cons.mp hm with hm | hm
    · obtain ⟨hk, hv⟩ := Prod.mk.injEq .. ▸ hm
      subst hk; subst hv
      simp [fieldLookup]
    · have hkk : k' ≠ k := by
        intro he; subst he
        exact hnd.1 (List.mem_map.mpr ⟨(k', v), hm, rfl⟩)
      simpa [fieldLookup, hkk] using ih hnd.2 hm

lemma chkListC_mem {k : JSVal → Option (List Nat)} :
    ∀ {vs : List JSVal} {ls : List Nat}, chkListC k vs = some ls →
      ∀ v ∈ vs, ∃ lv, k v = some lv := by
  intro vs
  induction vs with
  | nil => intro ls _ v hv; simp at hv
  | cons w ws ih =>
    intro ls hls v hv
    simp only [chkListC] at hls
    cases h1 : k w with
    | none => rw [h1] at hls; exact absurd hls (by simp)
    | some l1 =>
      cases h2 : chkListC k ws with
      | none => rw [h1, h2] at hls; exact absurd hls (by simp)
      | some l2 =>
        rcases List.mem_cons.mp hv with hv | hv
        · exact ⟨l1, hv ▸ h1⟩
        · exact ih h2 v hv

/-! ## Symmetry on tree-shaped set/map-free values -/

lemma beq_comm' {α : Type} [BEq α] [LawfulBEq α] (x y : α) :
    (x == y) = (y == x) := by
  by_cases hxy : x = y
  · subst hxy; rfl
  · rw [beq_eq_false_iff_ne.mpr hxy, beq_eq_false_iff_ne.mpr (Ne.symm hxy)]

lemma objIs_symm (a b : JSVal) : objIs a b = objIs b a := by
  cases a <;> cases b <;> simp only [objIs] <;> exact beq_comm' _ _

lemma listEqBool_symm_of {h : Heap} :
    ∀ {as bs : List JSVal}, as.length = bs.length →
      (∀ v ∈ as, ∀ w ∈ bs, deepEqual h v w = deepEqual h w v) →
      listEqBool h as bs = listEqBool h bs as := by
  intro as
  induction as with
  | nil =>
    intro bs hlen _
    cases bs with
    | nil => rfl
    | cons w ws => simp at hlen
  | cons v vs ih =>
    intro bs hlen hsym
    cases bs with
    | nil => simp at hlen
    | cons w ws =>
      simp only [listEqBool]
      rw [hsym v (List.mem_cons_self _ _) w (List.mem_cons_self _ _),
        ih (by simpa using hlen)
          (fun v' hv' w' hw' => hsym v' (List.mem_cons.mpr (Or.inr hv'))
            w' (List.mem_cons.mpr (Or.inr hw')))]

lemma recordEqBool_iff {h : Heap} {fb : List (String × JSVal)} :
    ∀ {fa : List (String × JSVal)},
      recordEqBool h fb fa = true ↔
        ∀ p ∈ fa, ∃ w, protoLookup fb p.1 = some w ∧
          deepEqual h p.2 w = true := by
  intro fa
  induction fa with
  | nil => simp [recordEqBool]
  | cons p rest ih =>
    obtain ⟨key, av⟩ := p
    cases hlk : protoLookup fb key with
    | none =>
      simp only [recordEqBool, hlk]
      constructor
      · intro hfalse; exact absurd hfalse (by simp)
      · intro hall
        obtain ⟨w, hw, _⟩ := hall (key, av) (List.mem_cons_self _ _)
        rw [hlk] at hw; exact absurd hw (by simp)
    | some bv =>
      simp only [recordEqBool, hlk, Bool.and_eq_true, ih]
      constructor
      · rintro ⟨hd, hrest⟩ p hp
        rcases List.mem_cons.mp hp with hp | hp
        · subst hp; exact ⟨bv, hlk, hd⟩
        · exact hrest p hp
      · intro hall
        refine ⟨?_, fun p hp => hall p (List.mem_cons.mpr (Or.inr hp))⟩
        obtain ⟨w, hw, hd⟩ := hall (key, av) (List.mem_cons_self _ _)
        rw [hlk] at hw
        exact (Option.some.inj hw) ▸ hd

lemma keys_mem_flip {fa fb : List (String × JSVal)}
    (hlen : fa.length = fb.length)
    (hndA : (fa.map Prod.fst).Nodup) (hndB : (fb.map Prod.fst).Nodup)
    (hsub : ∀ k ∈ fa.map Prod.fst, k ∈ fb.map Prod.fst) :
    ∀ k ∈ fb.map Prod.fst, k ∈ fa.map Prod.fst := by
  have hfin : (fa.map Prod.fst).toFinset = (fb.map Prod.fst).toFinset := by
    apply Finset.eq_of_subset_of_card_le
    · intro k hk
      simp only [List.mem_toFinset] at hk ⊢
      exact hsub k hk
    · rw [List.toFinset_card_of_nodup hndA, List.toFinset_card_of_nodup hndB]
      simp [hlen]
  intro k hk
  have : k ∈ (fa.map Prod.fst).toFinset := by
    rw [hfin]; simpa using hk
  simpa using this

lemma protoLookup_of_own {fb : List (String × JSVal)} {key : String}
    {v : JSVal} (hv : fieldLookup fb key = some v) :
    protoLookup fb key = some v := by
  simp [protoLookup, hv]

lemma protoLookup_not_proto {fb : List (String × JSVal)} {key : String}
    (hk : key ∉ objectProtoKeys) : protoLookup fb key = fieldLookup fb key := by
  cases hlk : fieldLookup fb key with
  | some v => simp [protoLookup, hlk]
  | none => simp [protoLookup, hlk, hk]

lemma recordEq_flip {h : Heap} {fa fb : List (String × JSVal)}
    (hlen : fa.length = fb.length)
    (hka : recordKeysOk fa) (hkb : recordKeysOk fb)
    (hsym : ∀ v ∈ fa.map Prod.snd, ∀ w ∈ fb.map Prod.snd,
      deepEqual h v w = deepEqual h w v)
    (hab : recordEqBool h fb fa = true) : recordEqBool h fa fb = true := by
  rw [recordEqBool_iff] at hab ⊢
  have hsubkeys : ∀ k ∈ fa.map Prod.fst, k ∈ fb.map Prod.fst := by
    intro k hk
    obtain ⟨⟨k', v⟩, hmem, hkeq⟩ := List.mem_map.mp hk
    obtain ⟨w', hw', _⟩ := hab (k', v) hmem
    rw [protoLookup_not_proto (hkeq ▸ hka.2 k hk)] at hw'
    exact hkeq ▸ mem_keys_of_lookup hw'
  intro p hp
  obtain ⟨k, w⟩ := p
  have hkfb : k ∈ fb.map Prod.fst := List.mem_map.mpr ⟨(k, w), hp, rfl⟩
  have hkfa : k ∈ fa.map Prod.fst :=
    keys_mem_flip hlen hka.1 hkb.1 hsubkeys k hkfb
  obtain ⟨v, hv⟩ := lookup_isSome_of_mem_keys hkfa
  refine ⟨v, protoLookup_of_own hv, ?_⟩
  have hvm : (k, v) ∈ fa := fieldLookup_mem hv
  obtain ⟨w', hw', hdq⟩ := hab (k, v) hvm
  rw [protoLookup_not_proto (hka.2 k hkfa)] at hw'
  have hwfb : fieldLookup fb k = some w := lookup_of_mem_nodup hkb.1 hp
  rw [hwfb] at hw'
  have hww : w = w' := Option.some.inj hw'
  subst hww
  rw [← hsym v (List.mem_map.mpr ⟨(k, v), hvm, rfl⟩)
    w (List.mem_map.mpr ⟨(k, w), hp, rfl⟩)]
  exact hdq

/-! ## The comparator's value on each branch (tree-shaped left value) -/

lemma den_tagne {h : Heap} {i j : Nat} {da db : ObjData} (hij : i ≠ j)
    (hga : h.get? i = some da) (hgb : h.get? j = some db)
    (htag : da.tag ≠ db.tag) : deepEqual h (.obj i) (.obj j) = false :=
  deepEqual_unfold_some
    (deepEqualF_eval_tagne (f := h.length) (s := []) hij hga hgb htag)

lemma den_date {h : Heap} {i j : Nat} {ta tb : Int} (hij : i ≠ j)
    (hga : h.get? i = some (.date ta)) (hgb : h.get? j = some (.date tb)) :
    deepEqual h (.obj i) (.obj j) = decide (ta = tb) :=
  deepEqual_unfold_some (by
    simpa using deepEqualF_eval_date (f := h.length) (s := []) hij hga hgb
      (by simp [seenLookup]))

lemma den_regexp {h : Heap} {i j : Nat} {sa fla sb flb : String} (hij : i ≠ j)
    (hga : h.get? i = some (.regexp sa fla))
    (hgb : h.get? j = some (.regexp sb flb)) :
    deepEqual h (.obj i) (.obj j)
      = (decide (sa = sb) && decide (fla = flb)) :=
  deepEqual_unfold_some (by
    simpa using deepEqualF_eval_regexp (f := h.length) (s := []) hij hga hgb
      (by simp [seenLookup]))

lemma den_arr {h : Heap} {n i j : Nat} {la : List Nat} {elems bs : List JSVal}
    (hij : i ≠ j) (hchk : chk h n (.obj i) = some la)
    (hga : h.get? i = some (.arr elems)) (hgb : h.get? j = some (.arr bs)) :
    deepEqual h (.obj i) (.obj j)
      = (decide (elems.length = bs.length) && listEqBool h elems bs) := by
  have hlalen : la.length ≤ h.length := chk_length_le hchk
  cases n with
  | zero => simp [chk] at hchk
  | succ n =>
    simp only [chk, hga] at hchk
    split at hchk
    case _ ls hls =>
      split at hchk
      case _ hnd =>
        replace hchk : i :: ls = la := Option.some.inj hchk
        subst hchk
        by_cases hlen : elems.length = bs.length
        · have hlslen : ls.length < h.length := by
            simp only [List.length_cons] at hlalen; omega
          have havd : ∀ x ∈ ls, x ∉ seenKeys [(i, j)] := by
            intro x hx
            simp only [seenKeys, List.map_cons, List.map_nil,
              List.mem_singleton]
            rintro rfl
            exact (List.nodup_cons.mp hnd).1 hx
          obtain ⟨t0, ht0, _⟩ :=
            eqListC_canon (canonOn_all h n) elems ls bs [(i, j)] h.length
              hls hlslen havd (List.nodup_cons.mp hnd).2
          have heq : deepEqualF h (h.length + 1) (.obj i) (.obj j) []
              = some (listEqBool h elems bs, [(i, j)] ++ t0) := by
            rw [deepEqualF_eval_arr hij hga hgb (by simp [seenLookup]),
              if_pos hlen]
            simpa using ht0
          rw [deepEqual_unfold_some heq]
          simp [hlen]
        · have heq : deepEqualF h (h.length + 1) (.obj i) (.obj j) []
              = some (false, [(i, j)]) := by
            rw [deepEqualF_eval_arr hij hga hgb (by simp [seenLookup]),
              if_neg hlen]
            simp
          rw [deepEqual_unfold_some heq]
          simp [hlen]
      case _ => exact absurd hchk (by simp)
    case _ => exact absurd hchk (by simp)

lemma den_record {h : Heap} {n i j : Nat} {la : List Nat}
    {fa fb : List (String × JSVal)}
    (hij : i ≠ j) (hchk : chk h n (.obj i) = some la)
    (hga : h.get? i = some (.record fa)) (hgb : h.get? j = some (.record fb)) :
    deepEqual h (.obj i) (.obj j)
      = (recordEqBool h fb fa && decide (fa.length = fb.length)) := by
  have hlalen : la.length ≤ h.length := chk_length_le hchk
  cases n with
  | zero => simp [chk] at hchk
  | succ n =>
    simp only [chk, hga] at hchk
    split at hchk
    case _ hkeys =>
      split at hchk
      case _ ls hls =>
        split at hchk
        case _ hnd =>
          replace hchk : i :: ls = la := Option.some.inj hchk
          subst hchk
          have hlslen : ls.length < h.length := by
            simp only [List.length_cons] at hlalen; omega
          have havd : ∀ x ∈ ls, x ∉ seenKeys [(i, j)] := by
            intro x hx
            simp only [seenKeys, List.map_cons, List.map_nil,
              List.mem_singleton]
            rintro rfl
            exact (List.nodup_cons.mp hnd).1 hx
          obtain ⟨t0, ht0, _⟩ :=
            recordC_canon (canonOn_all h n) fa ls fb [(i, j)] h.length
              hls hlslen havd (List.nodup_cons.mp hnd).2
          have heval :=
            deepEqualF_eval_record (f := h.length) (s := []) hij hga hgb
              (by simp [seenLookup])
          rw [show ([] : Seen) ++ [(i, j)] = [(i, j)] from rfl] at heval
          rw [ht0] at heval
          cases hrb : recordEqBool h fb fa with
          | true =>
            rw [hrb] at heval
            rw [deepEqual_unfold_some heval]
            simp
          | false =>
            rw [hrb] at heval
            rw [deepEqual_unfold_some heval]
            simp
        case _ => exact absurd hchk (by simp)
      case _ => exact absurd hchk (by simp)
    case _ => exact absurd hchk (by simp)

/-- Symmetry of the comparator on tree-shaped, set/map-free values. -/
theorem deepEqual_symm_chk {h : Heap} :
    ∀ n {m : Nat} {a b : JSVal} {la lb : List Nat},
      chk h n a = some la → chk h m b = some lb →
      deepEqual h a b = deepEqual h b a := by
  intro n
  induction n with
  | zero => intro m a b la lb hca _; simp [chk] at hca
  | succ n ih =>
    intro m a b la lb hca hcb
    cases hid : objIs a b with
    | true =>
      rw [deepEqual_of_objIs hid,
        deepEqual_of_objIs (by rw [objIs_symm]; exact hid)]
    | false =>
      have hid' : objIs b a = false := by rw [objIs_symm]; exact hid
      by_cases haobj : ∃ i, a = JSVal.obj i
      case neg =>
        have ha : ∀ i, a ≠ JSVal.obj i := fun i hi => haobj ⟨i, hi⟩
        rw [deepEqual_eval_nonobj (fun i j hij => ha i hij.1) hid,
          deepEqual_eval_nonobj (fun i j hij => ha j hij.2) hid']
      case pos =>
      obtain ⟨i, rfl⟩ := haobj
      by_cases hbobj : ∃ j, b = JSVal.obj j
      case neg =>
        have hb : ∀ j, b ≠ JSVal.obj j := fun j hj => hbobj ⟨j, hj⟩
        rw [deepEqual_eval_nonobj (fun i' j hij => hb j hij.2) hid,
          deepEqual_eval_nonobj (fun i' j hij => hb i' hij.1) hid']
      case pos =>
      obtain ⟨j, rfl⟩ := hbobj
      have hij : i ≠ j := by
        intro he; subst he; simp [objIs] at hid
      have hca0 := hca
      have hcb0 := hcb
      cases m with
      | zero => simp [chk] at hcb
      | succ m =>
      simp only [chk] at hca hcb
      split at hca
      case _ elems hga =>
        split at hca
        case _ ls hls =>
          split at hca
          case _ hnd =>
            split at hcb
            case _ bs hgb =>
              split at hcb
              case _ lsb hlsb =>
                split at hcb
                case _ hndb =>
                  -- array vs array
                  rw [den_arr hij hca0 hga hgb,
                    den_arr (Ne.symm hij) hcb0 hgb hga]
                  by_cases hlen : elems.length = bs.length
                  · have hd1 : decide (elems.length = bs.length) = true := by
                      simp [hlen]
                    have hd2 : decide (bs.length = elems.length) = true := by
                      simp [hlen]
                    rw [hd1, hd2, Bool.true_and, Bool.true_and]
                    refine listEqBool_symm_of hlen ?_
                    intro v hv w hw
                    obtain ⟨lv, hlv⟩ := chkListC_mem hls v hv
                    obtain ⟨lw, hlw⟩ := chkListC_mem hlsb w hw
                    exact ih hlv hlw
                  · have hlen' : ¬(bs.length = elems.length) :=
                      fun he => hlen he.symm
                    simp [hlen, hlen']
                case _ => exact absurd hcb (by simp)
              case _ => exact absurd hcb (by simp)
            case _ tb hgb =>
              rw [den_tagne hij hga hgb (by simp [ObjData.tag]),
                den_tagne (Ne.symm hij) hgb hga (by simp [ObjData.tag])]
            case _ sb flb hgb =>
              rw [den_tagne hij hga hgb (by simp [ObjData.tag]),
                den_tagne (Ne.symm hij) hgb hga (by simp [ObjData.tag])]
            case _ fieldsb hgb =>
              split at hcb
              · split at hcb
                case _ lsb hlsb =>
                  split at hcb
                  · rw [den_tagne hij hga hgb (by simp [ObjData.tag]),
                      den_tagne (Ne.symm hij) hgb hga (by simp [ObjData.tag])]
                  · exact absurd hcb (by simp)
                case _ => exact absurd hcb (by simp)
              · exact absurd hcb (by simp)
            case _ => exact absurd hcb (by simp)
          case _ => exact absurd hca (by simp)
        case _ => exact absurd hca (by simp)
      case _ ta hga =>
        split at hcb
        case _ bs hgb =>
          split at hcb
          case _ lsb hlsb =>
            split at hcb
            case _ hndb =>
              rw [den_tagne hij hga hgb (by simp [ObjData.tag]),
                den_tagne (Ne.symm hij) hgb hga (by simp [ObjData.tag])]
            case _ => exact absurd hcb (by simp)
          case _ => exact absurd hcb (by simp)
        case _ tb hgb =>
          rw [den_date hij hga hgb, den_date (Ne.symm hij) hgb hga]
          simp [eq_comm]
        case _ sb flb hgb =>
          rw [den_tagne hij hga hgb (by simp [ObjData.tag]),
            den_tagne (Ne.symm hij) hgb hga (by simp [ObjData.tag])]
        case _ fieldsb hgb =>
          split at hcb
          · split at hcb
            case _ lsb hlsb =>
              split at hcb
              · rw [den_tagne hij hga hgb (by simp [ObjData.tag]),
                  den_tagne (Ne.symm hij) hgb hga (by simp [ObjData.tag])]
              · exact absurd hcb (by simp)
            case _ => exact absurd hcb (by simp)
          · exact absurd hcb (by simp)
        case _ => exact absurd hcb (by simp)
      case _ sa fla hga =>
        split at hcb
        case _ bs hgb =>
          split at hcb
          case _ lsb hlsb =>
            split at hcb
            case _ hndb =>
              rw [den_tagne hij hga hgb (by simp [ObjData.tag]),
                den_tagne (Ne.symm hij) hgb hga (by simp [ObjData.tag])]
            case _ => exact absurd hcb (by simp)
          case _ => exact absurd hcb (by simp)
        case _ tb hgb =>
          rw [den_tagne hij hga hgb (by simp [ObjData.tag]),
            den_tagne (Ne.symm hij) hgb hga (by simp [ObjData.tag])]
        case _ sb flb hgb =>
          rw [den_regexp hij hga hgb, den_regexp (Ne.symm hij) hgb hga]
          rw [show decide (sa = sb) = decide (sb = sa) by simp [eq_comm],
            show decide (fla = flb) = decide (flb = fla) by simp [eq_comm]]
        case _ fieldsb hgb =>
          split at hcb
          · split at hcb
            case _ lsb hlsb =>
              split at hcb
              · rw [den_tagne hij hga hgb (by simp [ObjData.tag]),
                  den_tagne (Ne.symm hij) hgb hga (by simp [ObjData.tag])]
              · exact absurd hcb (by simp)
            case _ => exact absurd hcb (by simp)
          · exact absurd hcb (by simp)
        case _ => exact absurd hcb (by simp)
      case _ fields hga =>
        split at hca
        case _ hkeys =>
          split at hca
          case _ ls hls =>
            split at hca
            case _ hnd =>
              split at hcb
              case _ bs hgb =>
                split at hcb
                case _ lsb hlsb =>
                  split at hcb
                  case _ hndb =>
                    rw [den_tagne hij hga hgb (by simp [ObjData.tag]),
                      den_tagne (Ne.symm hij) hgb hga (by simp [ObjData.tag])]
                  case _ => exact absurd hcb (by simp)
                case _ => exact absurd hcb (by simp)
              case _ tb hgb =>
                rw [den_tagne hij hga hgb (by simp [ObjData.tag]),
                  den_tagne (Ne.symm hij) hgb hga (by simp [ObjData.tag])]
              case _ sb flb hgb =>
                rw [den_tagne hij hga hgb (by simp [ObjData.tag]),
                  den_tagne (Ne.symm hij) hgb hga (by simp [ObjData.tag])]
              case _ fieldsb hgb =>
                split at hcb
                case _ hkeysb =>
                  split at hcb
                  case _ lsb hlsb =>
                    split at hcb
                    case _ hndb =>
                      -- record vs record
                      rw [den_record hij hca0 hga hgb,
                        den_record (Ne.symm hij) hcb0 hgb hga]
                      by_cases hlen : fields.length = fieldsb.length
                      · have hsymAB : ∀ v ∈ fields.map Prod.snd,
                            ∀ w ∈ fieldsb.map Prod.snd,
                            deepEqual h v w = deepEqual h w v := by
                          intro v hv w hw
                          obtain ⟨lv, hlv⟩ := chkListC_mem hls v hv
                          obtain ⟨lw, hlw⟩ := chkListC_mem hlsb w hw
                          exact ih hlv hlw
                        have hlen' : fieldsb.length = fields.length := hlen.symm
                        have hd1 :
                            decide (fields.length = fieldsb.length) = true := by
                          simp [hlen]
                        have hd2 :
                            decide (fieldsb.length = fields.length) = true := by
                          simp [hlen]
                        rw [hd1, hd2, Bool.and_true, Bool.and_true]
                        cases hx : recordEqBool h fieldsb fields with
                        | true =>
                          rw [recordEq_flip hlen hkeys hkeysb hsymAB hx]
                        | false =>
                          cases hy : recordEqBool h fields fieldsb with
                          | true =>
                            have := recordEq_flip hlen' hkeysb hkeys
                              (fun v hv w hw => (hsymAB w hw v hv).symm) hy
                            rw [this] at hx
                            exact absurd hx (by simp)
                          | false => rfl
                      · have hlen' : ¬(fieldsb.length = fields.length) :=
                          fun he => hlen he.symm
                        simp [hlen, hlen']
                    case _ => exact absurd hcb (by simp)
                  case _ => exact absurd hcb (by simp)
                case _ => exact absurd hcb (by simp)
              case _ => exact absurd hcb (by simp)
            case _ => exact absurd hca (by simp)
          case _ => exact absurd hca (by simp)
        case _ => exact absurd hca (by simp)
      case _ => exact absurd hca (by simp)

/-! ## Acyclic tree certificates including set/map members

`chkT h n v` certifies that `v` is tree-shaped — every composite
reference reachable from `v` occurs exactly once — with set-like and
map-like members allowed (unlike `chk`, which also rules those out and
constrains record keys).  On such values the comparator's verdict and
its memo additions depend only on the memo entries keyed by the value's
own nodes: two runs whose memos agree there proceed in lockstep.  This
is the basis of the per-key compositional reading of the record branch.
`chkT` is a verification-side predicate, not part of the source. -/

def chkT (h : Heap) : Nat → JSVal → Option (List Nat)
  | 0, _ => none
  | n + 1, v =>
    match v with
    | .obj i =>
      match h.get? i with
      | some (.arr elems) =>
        match chkListC (chkT h n) elems with
        | some ls => if (i :: ls).Nodup then some (i :: ls) else none
        | none => none
      | some (.date _) => some [i]
      | some (.regexp _ _) => some [i]
      | some (.set elems) =>
        match chkListC (chkT h n) elems with
        | some ls => if (i :: ls).Nodup then some (i :: ls) else none
        | none => none
      | some (.map entries) =>
        match chkListC (chkT h n) (entries.flatMap (fun p => [p.1, p.2])) with
        | some ls => if (i :: ls).Nodup then some (i :: ls) else none
        | none => none
      | some (.record fields) =>
        match chkListC (chkT h n) (fields.map Prod.snd) with
        | some ls => if (i :: ls).Nodup then some (i :: ls) else none
        | none => none
      | none => none
    | _ => some []

lemma chkT_nodup {h : Heap} {n : Nat} {a : JSVal} {la : List Nat}
    (hc : chkT h n a = some la) : la.Nodup := by
  cases n with
  | zero => simp [chkT] at hc
  | succ n =>
    cases a with
    | obj i =>
      simp only [chkT] at hc
      split at hc
      case _ d elems hga =>
        split at hc
        case _ ls hls =>
          split at hc
          · simp only [Option.some.injEq] at hc; subst hc; assumption
          · exact absurd hc (by simp)
        case _ => exact absurd hc (by simp)
      case _ t hga => simp only [Option.some.injEq] at hc; subst hc; simp
      case _ so fl hga =>
        simp only [Option.some.injEq] at hc; subst hc; simp
      case _ elems hga =>
        split at hc
        case _ ls hls =>
          split at hc
          · simp only [Option.some.injEq] at hc; subst hc; assumption
          · exact absurd hc (by simp)
        case _ => exact absurd hc (by simp)
      case _ entries hga =>
        split at hc
        case _ ls hls =>
          split at hc
          · simp only [Option.some.injEq] at hc; subst hc; assumption
          · exact absurd hc (by simp)
        case _ => exact absurd hc (by simp)
      case _ fields hga =>
        split at hc
        case _ ls hls =>
          split at hc
          · simp only [Option.some.injEq] at hc; subst hc; assumption
          · exact absurd hc (by simp)
        case _ => exact absurd hc (by simp)
      case _ => exact absurd hc (by simp)
    | undef => simp only [chkT, Option.some.injEq] at hc; subst hc; simp
    | vnull => simp only [chkT, Option.some.injEq] at hc; subst hc; simp
    | bool b => simp only [chkT, Option.some.injEq] at hc; subst hc; simp
    | num m => simp only [chkT, Option.some.injEq] at hc; subst hc; simp
    | str st => simp only [chkT, Option.some.injEq] at hc; subst hc; simp
    | fn fid => simp only [chkT, Option.some.injEq] at hc; subst hc; simp
    | builtin nm => simp only [chkT, Option.some.injEq] at hc; subst hc; simp

lemma chkT_bound {h : Heap} :
    ∀ n {a : JSVal} {la : List Nat},
      chkT h n a = some la → ∀ i ∈ la, i < h.length := by
  intro n
  induction n with
  | zero => intro a la hc; simp [chkT] at hc
  | succ n ih =>
    intro a la hc i hi
    cases a with
    | obj j =>
      simp only [chkT] at hc
      split at hc
      case _ d elems hga =>
        split at hc
        case _ ls hls =>
          split at hc
          · simp only [Option.some.injEq] at hc
            subst hc
            rcases List.mem_cons.mp hi with hji | hmem
            · exact hji ▸ heapGet_lt hga
            · exact chkListC_bound (fun v lv hv => ih hv) elems ls hls i hmem
          · exact absurd hc (by simp)
        case _ => exact absurd hc (by simp)
      case _ t hga =>
        simp only [Option.some.injEq] at hc; subst hc
        simp only [List.mem_singleton] at hi
        exact hi ▸ heapGet_lt hga
      case _ so fl hga =>
        simp only [Option.some.injEq] at hc; subst hc
        simp only [List.mem_singleton] at hi
        exact hi ▸ heapGet_lt hga
      case _ elems hga =>
        split at hc
        case _ ls hls =>
          split at hc
          · simp only [Option.some.injEq] at hc
            subst hc
            rcases List.mem_cons.mp hi with hji | hmem
            · exact hji ▸ heapGet_lt hga
            · exact chkListC_bound (fun v lv hv => ih hv) elems ls hls i hmem
          · exact absurd hc (by simp)
        case _ => exact absurd hc (by simp)
      case _ entries hga =>
        split at hc
        case _ ls hls =>
          split at hc
          · simp only [Option.some.injEq] at hc
            subst hc
            rcases List.mem_cons.mp hi with hji | hmem
            · exact hji ▸ heapGet_lt hga
            · exact chkListC_bound (fun v lv hv => ih hv) _ ls hls i hmem
          · exact absurd hc (by simp)
        case _ => exact absurd hc (by simp)
      case _ fields hga =>
        split at hc
        case _ ls hls =>
          split at hc
          · simp only [Option.some.injEq] at hc
            subst hc
            rcases List.mem_cons.mp hi with hji | hmem
            · exact hji ▸ heapGet_lt hga
            · exact chkListC_bound (fun v lv hv => ih hv) _ ls hls i hmem
          · exact absurd hc (by simp)
        case _ => exact absurd hc (by simp)
      case _ => exact absurd hc (by simp)
    | undef => simp only [chkT, Option.some.injEq] at hc; subst hc; simp at hi
    | vnull => simp only [chkT, Option.some.injEq] at hc; subst hc; simp at hi
    | bool b => simp only [chkT, Option.some.injEq] at hc; subst hc; simp at hi
    | num m => simp only [chkT, Option.some.injEq] at hc; subst hc; simp at hi
    | str st => simp only [chkT, Option.some.injEq] at hc; subst hc; simp at hi
    | fn fid => simp only [chkT, Option.some.injEq] at hc; subst hc; simp at hi
    | builtin nm =>
      simp only [chkT, Option.some.injEq] at hc; subst hc; simp at hi

/-- Two memos agree on a set of left ids. -/
def SeenAgree (la : List Nat) (s1 s2 : Seen) : Prop :=
  ∀ i ∈ la, seenLookup s1 i = seenLookup s2 i

lemma seenLookup_append (s t : Seen) (i : Nat) :
    seenLookup (s ++ t) i
      = match seenLookup s i with
        | some v => some v
        | none => seenLookup t i := by
  induction s with
  | nil => simp [seenLookup]
  | cons p rest ih =>
    obtain ⟨k, v⟩ := p
    by_cases hk : k = i
    · subst hk; simp [seenLookup]
    · simp [seenLookup, hk, ih]

lemma SeenAgree.mono {la lb : List Nat} {s1 s2 : Seen}
    (hsub : ∀ i ∈ lb, i ∈ la) (hag : SeenAgree la s1 s2) :
    SeenAgree lb s1 s2 :=
  fun i hi => hag i (hsub i hi)

lemma SeenAgree.push {la : List Nat} {s1 s2 : Seen} (t : Seen)
    (hag : SeenAgree la s1 s2) : SeenAgree la (s1 ++ t) (s2 ++ t) := by
  intro i hi
  rw [seenLookup_append, seenLookup_append, hag i hi]

/-! Additional single-frame evaluations used by the lockstep lemma. -/

lemma deepEqualF_eval_hit {h : Heap} {f i j cached : Nat} {s : Seen}
    {da db : ObjData} (hij : i ≠ j) (hga : h.get? i = some da)
    (hgb : h.get? j = some db) (htag : da.tag = db.tag)
    (hlk : seenLookup s i = some cached) :
    deepEqualF h (f + 1) (.obj i) (.obj j) s
      = some (decide (cached = j), s) := by
  rw [List.get?_eq_getElem?] at hga hgb
  simp [deepEqualF, objIs_obj_ne hij, hga, hgb, htag, hlk]

lemma deepEqualF_eval_set {h : Heap} {f i j : Nat} {s : Seen}
    {elems bs : List JSVal}
    (hij : i ≠ j) (hga : h.get? i = some (.set elems))
    (hgb : h.get? j = some (.set bs)) (hlk : seenLookup s i = none) :
    deepEqualF h (f + 1) (.obj i) (.obj j) s
      = if elems.length = bs.length
        then setAllC (deepEqualF h f) elems bs (s ++ [(i, j)])
        else some (false, s ++ [(i, j)]) := by
  rw [List.get?_eq_getElem?] at hga hgb
  by_cases hlen : elems.length = bs.length <;>
    simp [deepEqualF, objIs_obj_ne hij, hga, hgb, ObjData.tag, hlk, hlen]

lemma deepEqualF_eval_map {h : Heap} {f i j : Nat} {s : Seen}
    {am bm : List (JSVal × JSVal)}
    (hij : i ≠ j) (hga : h.get? i = some (.map am))
    (hgb : h.get? j = some (.map bm)) (hlk : seenLookup s i = none) :
    deepEqualF h (f + 1) (.obj i) (.obj j) s
      = if am.length = bm.length
        then mapAllC (deepEqualF h f) am bm (s ++ [(i, j)])
        else some (false, s ++ [(i, j)]) := by
  rw [List.get?_eq_getElem?] at hga hgb
  by_cases hlen : am.length = bm.length <;>
    simp [deepEqualF, objIs_obj_ne hij, hga, hgb, ObjData.tag, hlk, hlen]

lemma chkListC_cons_eq {k : JSVal → Option (List Nat)} {v : JSVal}
    {vs : List JSVal} {ls : List Nat} (hc : chkListC k (v :: vs) = some ls) :
    ∃ l1 l2, k v = some l1 ∧ chkListC k vs = some l2 ∧ ls = l1 ++ l2 := by
  simp only [chkListC] at hc
  cases h1 : k v with
  | none => rw [h1] at hc; exact absurd hc (by simp)
  | some l1 =>
    cases h2 : chkListC k vs with
    | none => rw [h1, h2] at hc; exact absurd hc (by simp)
    | some l2 =>
      rw [h1, h2] at hc
      simp only [Option.some.injEq] at hc
      exact ⟨l1, l2, rfl, rfl, hc.symm⟩

/-- Lockstep property at certificate fuel `n`: on a `chkT`-certified left
value, two runs whose memos agree on the value's nodes return the same
verdict, append the same entries (all keyed by the value's nodes), and
never run out of fuel beyond the certificate length. -/
def LockOn (h : Heap) (n : Nat) : Prop :=
  ∀ a la, chkT h n a = some la → ∀ b fuel s1 s2, la.length < fuel →
    SeenAgree la s1 s2 →
    ∃ r t, deepEqualF h fuel a b s1 = some (r, s1 ++ t) ∧
      deepEqualF h fuel a b s2 = some (r, s2 ++ t) ∧
      ∀ p ∈ t, p.1 ∈ la

lemma eqListC_lock {h : Heap} {n : Nat} (hC : LockOn h n) :
    ∀ vs ls ws s1 s2 fuel, chkListC (chkT h n) vs = some ls →
      ls.length < fuel → SeenAgree ls s1 s2 →
      ∃ r t, eqListC (deepEqualF h fuel) vs ws s1 = some (r, s1 ++ t) ∧
        eqListC (deepEqualF h fuel) vs ws s2 = some (r, s2 ++ t) ∧
        ∀ p ∈ t, p.1 ∈ ls := by
  intro vs
  induction vs with
  | nil =>
    intro ls ws s1 s2 fuel _ _ _
    exact ⟨true, [], by simp [eqListC], by simp [eqListC], by simp⟩
  | cons v vs ih =>
    intro ls ws s1 s2 fuel hls hfuel hag
    simp only [chkListC] at hls
    cases h1 : chkT h n v with
    | none => rw [h1] at hls; exact absurd hls (by simp)
    | some l1 =>
      cases h2 : chkListC (chkT h n) vs with
      | none => rw [h1, h2] at hls; exact absurd hls (by simp)
      | some l2 =>
        rw [h1, h2] at hls
        simp only [Option.some.injEq] at hls
        subst hls
        cases ws with
        | nil =>
          exact ⟨false, [], by simp [eqListC], by simp [eqListC], by simp⟩
        | cons w ws =>
          have hf1 : l1.length < fuel := by
            have := List.length_append l1 l2 ▸ hfuel; omega
          obtain ⟨r1, t1, he1, he2, hsub1⟩ :=
            hC v l1 h1 w fuel s1 s2 hf1
              (hag.mono (fun x hx => List.mem_append.mpr (Or.inl hx)))
          cases r1 with
          | false =>
            exact ⟨false, t1, by simp [eqListC, he1], by simp [eqListC, he2],
              fun p hp => List.mem_append.mpr (Or.inl (hsub1 p hp))⟩
          | true =>
            have hf2 : l2.length < fuel := by
              have := List.length_append l1 l2 ▸ hfuel; omega
            obtain ⟨r2, t2, hf1', hf2', hsub2⟩ :=
              ih l2 ws (s1 ++ t1) (s2 ++ t1) fuel h2 hf2
                ((hag.mono (fun x hx => List.mem_append.mpr (Or.inr hx))).push
                  t1)
            refine ⟨r2, t1 ++ t2, ?_, ?_, ?_⟩
            · simp only [eqListC, he1, hf1', List.append_assoc]
            · simp only [eqListC, he2, hf2', List.append_assoc]
            · intro p hp
              rcases List.mem_append.mp hp with hp | hp
              · exact List.mem_append.mpr (Or.inl (hsub1 p hp))
              · exact List.mem_append.mpr (Or.inr (hsub2 p hp))

lemma setFindC_lock {h : Heap} {n : Nat} (hC : LockOn h n)
    {av : JSVal} {l1 : List Nat} (h1 : chkT h n av = some l1) :
    ∀ bs s1 s2 fuel, l1.length < fuel → SeenAgree l1 s1 s2 →
      ∃ r t, setFindC (deepEqualF h fuel) av bs s1 = some (r, s1 ++ t) ∧
        setFindC (deepEqualF h fuel) av bs s2 = some (r, s2 ++ t) ∧
        ∀ p ∈ t, p.1 ∈ l1 := by
  intro bs
  induction bs with
  | nil =>
    intro s1 s2 fuel _ _
    exact ⟨false, [], by simp [setFindC], by simp [setFindC], by simp⟩
  | cons bv bs ih =>
    intro s1 s2 fuel hfuel hag
    obtain ⟨r1, t1, he1, he2, hsub1⟩ := hC av l1 h1 bv fuel s1 s2 hfuel hag
    cases r1 with
    | true =>
      exact ⟨true, t1, by simp [setFindC, he1], by simp [setFindC, he2],
        hsub1⟩
    | false =>
      obtain ⟨r2, t2, hg1, hg2, hsub2⟩ :=
        ih (s1 ++ t1) (s2 ++ t1) fuel hfuel (hag.push t1)
      refine ⟨r2, t1 ++ t2, ?_, ?_, ?_⟩
      · simp only [setFindC, he1, hg1, List.append_assoc]
      · simp only [setFindC, he2, hg2, List.append_assoc]
      · intro p hp
        rcases List.mem_append.mp hp with hp | hp
        · exact hsub1 p hp
        · exact hsub2 p hp

lemma setAllC_lock {h : Heap} {n : Nat} (hC : LockOn h n) :
    ∀ vs ls bs s1 s2 fuel, chkListC (chkT h n) vs = some ls →
      ls.length < fuel → SeenAgree ls s1 s2 →
      ∃ r t, setAllC (deepEqualF h fuel) vs bs s1 = some (r, s1 ++ t) ∧
        setAllC (deepEqualF h fuel) vs bs s2 = some (r, s2 ++ t) ∧
        ∀ p ∈ t, p.1 ∈ ls := by
  intro vs
  induction vs with
  | nil =>
    intro ls bs s1 s2 fuel _ _ _
    exact ⟨true, [], by simp [setAllC], by simp [setAllC], by simp⟩
  | cons av vs ih =>
    intro ls bs s1 s2 fuel hls hfuel hag
    simp only [chkListC] at hls
    cases h1 : chkT h n av with
    | none => rw [h1] at hls; exact absurd hls (by simp)
    | some l1 =>
      cases h2 : chkListC (chkT h n) vs with
      | none => rw [h1, h2] at hls; exact absurd hls (by simp)
      | some l2 =>
        rw [h1, h2] at hls
        simp only [Option.some.injEq] at hls
        subst hls
        have hf1 : l1.length < fuel := by
          have := List.length_append l1 l2 ▸ hfuel; omega
        obtain ⟨r1, t1, he1, he2, hsub1⟩ :=
          setFindC_lock hC h1 bs s1 s2 fuel hf1
            (hag.mono (fun x hx => List.mem_append.mpr (Or.inl hx)))
        cases r1 with
        | false =>
          exact ⟨false, t1, by simp [setAllC, he1], by simp [setAllC, he2],
            fun p hp => List.mem_append.mpr (Or.inl (hsub1 p hp))⟩
        | true =>
          have hf2 : l2.length < fuel := by
            have := List.length_append l1 l2 ▸ hfuel; omega
          obtain ⟨r2, t2, hg1, hg2, hsub2⟩ :=
            ih l2 bs (s1 ++ t1) (s2 ++ t1) fuel h2 hf2
              ((hag.mono (fun x hx => List.mem_append.mpr (Or.inr hx))).push
                t1)
          refine ⟨r2, t1 ++ t2, ?_, ?_, ?_⟩
          · simp only [setAllC, he1, hg1, List.append_assoc]
          · simp only [setAllC, he2, hg2, List.append_assoc]
          · intro p hp
            rcases List.mem_append.mp hp with hp | hp
            · exact List.mem_append.mpr (Or.inl (hsub1 p hp))
            · exact List.mem_append.mpr (Or.inr (hsub2 p hp))

lemma mapFindC_lock {h : Heap} {n : Nat} (hC : LockOn h n)
    {ak av : JSVal} {lk lv : List Nat}
    (hkc : chkT h n ak = some lk) (hvc : chkT h n av = some lv) :
    ∀ bs s1 s2 fuel, lk.length < fuel → lv.length < fuel →
      SeenAgree lk s1 s2 → SeenAgree lv s1 s2 →
      ∃ r t, mapFindC (deepEqualF h fuel) ak av bs s1 = some (r, s1 ++ t) ∧
        mapFindC (deepEqualF h fuel) ak av bs s2 = some (r, s2 ++ t) ∧
        ∀ p ∈ t, p.1 ∈ lk ∨ p.1 ∈ lv := by
  intro bs
  induction bs with
  | nil =>
    intro s1 s2 fuel _ _ _ _
    exact ⟨false, [], by simp [mapFindC], by simp [mapFindC], by simp⟩
  | cons b bs ih =>
    obtain ⟨bk, bv⟩ := b
    intro s1 s2 fuel hfk hfv hagk hagv
    obtain ⟨r1, t1, he1, he2, hsub1⟩ := hC ak lk hkc bk fuel s1 s2 hfk hagk
    cases r1 with
    | false =>
      obtain ⟨r2, t2, hg1, hg2, hsub2⟩ :=
        ih (s1 ++ t1) (s2 ++ t1) fuel hfk hfv (hagk.push t1) (hagv.push t1)
      refine ⟨r2, t1 ++ t2, ?_, ?_, ?_⟩
      · simp only [mapFindC, he1, hg1, List.append_assoc]
      · simp only [mapFindC, he2, hg2, List.append_assoc]
      · intro p hp
        rcases List.mem_append.mp hp with hp | hp
        · exact Or.inl (hsub1 p hp)
        · exact hsub2 p hp
    | true =>
      obtain ⟨r2, t2, hg1, hg2, hsub2⟩ :=
        hC av lv hvc bv fuel (s1 ++ t1) (s2 ++ t1) hfv (hagv.push t1)
      cases r2 with
      | true =>
        refine ⟨true, t1 ++ t2, ?_, ?_, ?_⟩
        · simp only [mapFindC, he1, hg1, List.append_assoc]
        · simp only [mapFindC, he2, hg2, List.append_assoc]
        · intro p hp
          rcases List.mem_append.mp hp with hp | hp
          · exact Or.inl (hsub1 p hp)
          · exact Or.inr (hsub2 p hp)
      | false =>
        obtain ⟨r3, t3, hh1, hh2, hsub3⟩ :=
          ih (s1 ++ t1 ++ t2) (s2 ++ t1 ++ t2) fuel hfk hfv
            ((hagk.push t1).push t2) ((hagv.push t1).push t2)
        simp only [List.append_assoc] at hh1 hh2
        refine ⟨r3, t1 ++ t2 ++ t3, ?_, ?_, ?_⟩
        · simp only [mapFindC, he1, hg1, hh1, List.append_assoc]
        · simp only [mapFindC, he2, hg2, hh2, List.append_assoc]
        · intro p hp
          rcases List.mem_append.mp hp with hp | hp
          · rcases List.mem_append.mp hp with hp | hp
            · exact Or.inl (hsub1 p hp)
            · exact Or.inr (hsub2 p hp)
          · exact hsub3 p hp

lemma mapAllC_lock {h : Heap} {n : Nat} (hC : LockOn h n) :
    ∀ entries ls bs s1 s2 fuel,
      chkListC (chkT h n) (entries.flatMap (fun p => [p.1, p.2])) = some ls →
      ls.length < fuel → SeenAgree ls s1 s2 →
      ∃ r t, mapAllC (deepEqualF h fuel) entries bs s1 = some (r, s1 ++ t) ∧
        mapAllC (deepEqualF h fuel) entries bs s2 = some (r, s2 ++ t) ∧
        ∀ p ∈ t, p.1 ∈ ls := by
  intro entries
  induction entries with
  | nil =>
    intro ls bs s1 s2 fuel _ _ _
    exact ⟨true, [], by simp [mapAllC], by simp [mapAllC], by simp⟩
  | cons e rest ih =>
    obtain ⟨ak, av⟩ := e
    intro ls bs s1 s2 fuel hls hfuel hag
    have hflat : (((ak, av) :: rest).flatMap (fun p => [p.1, p.2]))
        = ak :: av :: rest.flatMap (fun p => [p.1, p.2]) := rfl
    rw [hflat] at hls
    obtain ⟨lk, l23, h1, h23, rfl⟩ := chkListC_cons_eq hls
    obtain ⟨lv, lrest, h2, h3, rfl⟩ := chkListC_cons_eq h23
    have hfk : lk.length < fuel := by
      have := List.length_append lk (lv ++ lrest) ▸ hfuel; omega
    have hfv : lv.length < fuel := by
      have h4 := List.length_append lk (lv ++ lrest) ▸ hfuel
      have h5 := List.length_append lv lrest
      omega
    have hmemk : ∀ x ∈ lk, x ∈ lk ++ (lv ++ lrest) :=
      fun x hx => List.mem_append.mpr (Or.inl hx)
    have hmemv : ∀ x ∈ lv, x ∈ lk ++ (lv ++ lrest) :=
      fun x hx => List.mem_append.mpr
        (Or.inr (List.mem_append.mpr (Or.inl hx)))
    obtain ⟨r1, t1, he1, he2, hsub1⟩ :=
      mapFindC_lock hC h1 h2 bs s1 s2 fuel hfk hfv
        (hag.mono hmemk) (hag.mono hmemv)
    cases r1 with
    | false =>
      refine ⟨false, t1, by simp [mapAllC, he1],
        by simp [mapAllC, he2], ?_⟩
      intro p hp
      rcases hsub1 p hp with hp | hp
      · exact hmemk p.1 hp
      · exact hmemv p.1 hp
    | true =>
      have hfrest : lrest.length < fuel := by
        have h4 := List.length_append lk (lv ++ lrest) ▸ hfuel
        have h5 := List.length_append lv lrest
        omega
      have hmemr : ∀ x ∈ lrest, x ∈ lk ++ (lv ++ lrest) :=
        fun x hx => List.mem_append.mpr
          (Or.inr (List.mem_append.mpr (Or.inr hx)))
      obtain ⟨r2, t2, hg1, hg2, hsub2⟩ :=
        ih lrest bs (s1 ++ t1) (s2 ++ t1) fuel h3 hfrest
          ((hag.mono hmemr).push t1)
      refine ⟨r2, t1 ++ t2, ?_, ?_, ?_⟩
      · simp only [mapAllC, he1, hg1, List.append_assoc]
      · simp only [mapAllC, he2, hg2, List.append_assoc]
      · intro p hp
        rcases List.mem_append.mp hp with hp | hp
        · rcases hsub1 p hp with hp | hp
          · exact hmemk p.1 hp
          · exact hmemv p.1 hp
        · exact hmemr p.1 (hsub2 p hp)

lemma recordC_lock {h : Heap} {n : Nat} (hC : LockOn h n) :
    ∀ fa ls (fb : List (String × JSVal)) s1 s2 fuel,
      chkListC (chkT h n) (fa.map Prod.snd) = some ls →
      ls.length < fuel → SeenAgree ls s1 s2 →
      ∃ r t, recordC (deepEqualF h fuel) fb fa s1 = some (r, s1 ++ t) ∧
        recordC (deepEqualF h fuel) fb fa s2 = some (r, s2 ++ t) ∧
        ∀ p ∈ t, p.1 ∈ ls := by
  intro fa
  induction fa with
  | nil =>
    intro ls fb s1 s2 fuel _ _ _
    exact ⟨true, [], by simp [recordC], by simp [recordC], by simp⟩
  | cons p fa ih =>
    obtain ⟨key, av⟩ := p
    intro ls fb s1 s2 fuel hls hfuel hag
    simp only [List.map_cons, chkListC] at hls
    cases h1 : chkT h n av with
    | none => rw [h1] at hls; exact absurd hls (by simp)
    | some l1 =>
      cases h2 : chkListC (chkT h n) (fa.map Prod.snd) with
      | none => rw [h1, h2] at hls; exact absurd hls (by simp)
      | some l2 =>
        rw [h1, h2] at hls
        simp only [Option.some.injEq] at hls
        subst hls
        cases hlk : protoLookup fb key with
        | none =>
          exact ⟨false, [], by simp [recordC, hlk], by simp [recordC, hlk],
            by simp⟩
        | some bv =>
          have hf1 : l1.length < fuel := by
            have := List.length_append l1 l2 ▸ hfuel; omega
          obtain ⟨r1, t1, he1, he2, hsub1⟩ :=
            hC av l1 h1 bv fuel s1 s2 hf1
              (hag.mono (fun x hx => List.mem_append.mpr (Or.inl hx)))
          cases r1 with
          | false =>
            exact ⟨false, t1, by simp [recordC, hlk, he1],
              by simp [recordC, hlk, he2],
              fun p hp => List.mem_append.mpr (Or.inl (hsub1 p hp))⟩
          | true =>
            have hf2 : l2.length < fuel := by
              have := List.length_append l1 l2 ▸ hfuel; omega
            obtain ⟨r2, t2, hg1, hg2, hsub2⟩ :=
              ih l2 fb (s1 ++ t1) (s2 ++ t1) fuel h2 hf2
                ((hag.mono (fun x hx => List.mem_append.mpr (Or.inr hx))).push
                  t1)
            refine ⟨r2, t1 ++ t2, ?_, ?_, ?_⟩
            · simp only [recordC, hlk, he1, hg1, List.append_assoc]
            · simp only [recordC, hlk, he2, hg2, List.append_assoc]
            · intro p hp
              rcases List.mem_append.mp hp with hp | hp
              · exact List.mem_append.mpr (Or.inl (hsub1 p hp))
              · exact List.mem_append.mpr (Or.inr (hsub2 p hp))

lemma lock_of_pure {h : Heap} {fuel : Nat} {a b : JSVal} {s1 s2 : Seen}
    {r : Bool} (la : List Nat)
    (h1 : deepEqualF h fuel a b s1 = some (r, s1))
    (h2 : deepEqualF h fuel a b s2 = some (r, s2)) :
    ∃ r' t, deepEqualF h fuel a b s1 = some (r', s1 ++ t) ∧
      deepEqualF h fuel a b s2 = some (r', s2 ++ t) ∧ ∀ p ∈ t, p.1 ∈ la :=
  ⟨r, [], by simpa using h1, by simpa using h2, by simp⟩

lemma lock_of_mark {h : Heap} {fuel i j : Nat} {b : JSVal} {s1 s2 : Seen}
    {r : Bool} {la : List Nat} (hmem : i ∈ la)
    (h1 : deepEqualF h fuel (.obj i) b s1 = some (r, s1 ++ [(i, j)]))
    (h2 : deepEqualF h fuel (.obj i) b s2 = some (r, s2 ++ [(i, j)])) :
    ∃ r' t, deepEqualF h fuel (.obj i) b s1 = some (r', s1 ++ t) ∧
      deepEqualF h fuel (.obj i) b s2 = some (r', s2 ++ t) ∧
      ∀ p ∈ t, p.1 ∈ la :=
  ⟨r, [(i, j)], h1, h2, by simpa using hmem⟩

lemma lock_goal_tagne {h : Heap} {f i j : Nat} {s1 s2 : Seen} {la : List Nat}
    {da db : ObjData} (hij : i ≠ j) (hga : h.get? i = some da)
    (hgb : h.get? j = some db) (htag : da.tag ≠ db.tag) :
    ∃ r t, deepEqualF h (f + 1) (.obj i) (.obj j) s1 = some (r, s1 ++ t) ∧
      deepEqualF h (f + 1) (.obj i) (.obj j) s2 = some (r, s2 ++ t) ∧
      ∀ p ∈ t, p.1 ∈ la :=
  ⟨false, [], by simpa using deepEqualF_eval_tagne hij hga hgb htag,
    by simpa using deepEqualF_eval_tagne hij hga hgb htag, by simp⟩

lemma lock_goal_hit {h : Heap} {f i j : Nat} {s1 s2 : Seen} {la : List Nat}
    {da db : ObjData} (hij : i ≠ j) (hga : h.get? i = some da)
    (hgb : h.get? j = some db) (htag : da.tag = db.tag)
    (hleq : seenLookup s1 i = seenLookup s2 i) {cached : Nat}
    (hl1 : seenLookup s1 i = some cached) :
    ∃ r t, deepEqualF h (f + 1) (.obj i) (.obj j) s1 = some (r, s1 ++ t) ∧
      deepEqualF h (f + 1) (.obj i) (.obj j) s2 = some (r, s2 ++ t) ∧
      ∀ p ∈ t, p.1 ∈ la :=
  ⟨decide (cached = j), [],
    by simpa using deepEqualF_eval_hit hij hga hgb htag hl1,
    by simpa using deepEqualF_eval_hit hij hga hgb htag (hleq ▸ hl1),
    by simp⟩

lemma lockOn_zero (h : Heap) : LockOn h 0 := by
  intro a la hc
  simp [chkT] at hc

lemma lockOn_succ {h : Heap} {n : Nat} (hC : LockOn h n) :
    LockOn h (n + 1) := by
  intro a la hchk b fuel s1 s2 hfuel hag
  by_cases haobj : ∃ i, a = JSVal.obj i
  case neg =>
    obtain ⟨f, rfl⟩ : ∃ f, fuel = f + 1 := by
      cases fuel with
      | zero => simp at hfuel
      | succ f => exact ⟨f, rfl⟩
    exact ⟨deepEqual h a b, [],
      by simpa using canon_prim_left (fun i hi => haobj ⟨i, hi⟩) f s1,
      by simpa using canon_prim_left (fun i hi => haobj ⟨i, hi⟩) f s2,
      by simp⟩
  case pos =>
  obtain ⟨i, rfl⟩ := haobj
  obtain ⟨f, rfl⟩ : ∃ f, fuel = f + 1 := by
    cases fuel with
    | zero => simp at hfuel
    | succ f => exact ⟨f, rfl⟩
  by_cases hbobj : ∃ j, b = JSVal.obj j
  case neg =>
    have hb : ∀ j, b ≠ JSVal.obj j := fun j hj => hbobj ⟨j, hj⟩
    exact ⟨deepEqual h (.obj i) b, [],
      by simpa using canon_prim_right hb f s1,
      by simpa using canon_prim_right hb f s2, by simp⟩
  case pos =>
  obtain ⟨j, rfl⟩ := hbobj
  by_cases hij : i = j
  · subst hij
    have hid : objIs (JSVal.obj i) (JSVal.obj i) = true := by simp [objIs]
    exact ⟨true, [], by simpa using deepEqualF_eval_true hid,
      by simpa using deepEqualF_eval_true hid, by simp⟩
  have hmemi : i ∈ la := by
    simp only [chkT] at hchk
    split at hchk
    case _ d elems hga =>
      split at hchk
      case _ ls hls =>
        split at hchk
        · simp only [Option.some.injEq] at hchk; subst hchk; simp
        · exact absurd hchk (by simp)
      case _ => exact absurd hchk (by simp)
    case _ t hga => simp only [Option.some.injEq] at hchk; subst hchk; simp
    case _ so fl hga =>
      simp only [Option.some.injEq] at hchk; subst hchk; simp
    case _ elems hga =>
      split at hchk
      case _ ls hls =>
        split at hchk
        · simp only [Option.some.injEq] at hchk; subst hchk; simp
        · exact absurd hchk (by simp)
      case _ => exact absurd hchk (by simp)
    case _ entries hga =>
      split at hchk
      case _ ls hls =>
        split at hchk
        · simp only [Option.some.injEq] at hchk; subst hchk; simp
        · exact absurd hchk (by simp)
      case _ => exact absurd hchk (by simp)
    case _ fields hga =>
      split at hchk
      case _ ls hls =>
        split at hchk
        · simp only [Option.some.injEq] at hchk; subst hchk; simp
        · exact absurd hchk (by simp)
      case _ => exact absurd hchk (by simp)
    case _ => exact absurd hchk (by simp)
  have hlkeq : seenLookup s1 i = seenLookup s2 i := hag i hmemi
  cases hgb : h.get? j with
  | none =>
    exact ⟨false, [], by simpa using deepEqualF_eval_noright hij hgb,
      by simpa using deepEqualF_eval_noright hij hgb, by simp⟩
  | some db =>
  simp only [chkT] at hchk
  split at hchk
  case _ d elems hga =>
    -- array node on the left
    split at hchk
    case _ ls hls =>
      split at hchk
      case _ hnd =>
        replace hchk : i :: ls = la := Option.some.inj hchk
        subst hchk
        cases db with
        | arr bs =>
          cases hlk1 : seenLookup s1 i with
          | some cached => exact lock_goal_hit hij hga hgb rfl hlkeq hlk1
          | none =>
            have hlk2 : seenLookup s2 i = none := hlkeq ▸ hlk1
            have hfls : ls.length < f := by
              simp only [List.length_cons] at hfuel; omega
            have hagls : SeenAgree ls (s1 ++ [(i, j)]) (s2 ++ [(i, j)]) :=
              (hag.mono (fun x hx => List.mem_cons.mpr (Or.inr hx))).push _
            by_cases hlen : elems.length = bs.length
            · obtain ⟨r, t, he1, he2, hsub⟩ :=
                eqListC_lock hC elems ls bs (s1 ++ [(i, j)]) (s2 ++ [(i, j)])
                  f hls hfls hagls
              refine ⟨r, (i, j) :: t, ?_, ?_, ?_⟩
              · rw [deepEqualF_eval_arr hij hga hgb hlk1, if_pos hlen, he1,
                  List.append_assoc]
                rfl
              · rw [deepEqualF_eval_arr hij hga hgb hlk2, if_pos hlen, he2,
                  List.append_assoc]
                rfl
              · intro p hp
                rcases List.mem_cons.mp hp with hp | hp
                · subst hp; exact List.mem_cons_self i ls
                · exact List.mem_cons.mpr (Or.inr (hsub p hp))
            · refine lock_of_mark (r := false) (j := j)
                (List.mem_cons_self i ls) ?_ ?_
              · rw [deepEqualF_eval_arr hij hga hgb hlk1, if_neg hlen]
              · rw [deepEqualF_eval_arr hij hga hgb hlk2, if_neg hlen]
        | date tb => exact lock_goal_tagne hij hga hgb (by simp [ObjData.tag])
        | regexp sb flb =>
          exact lock_goal_tagne hij hga hgb (by simp [ObjData.tag])
        | set bs => exact lock_goal_tagne hij hga hgb (by simp [ObjData.tag])
        | map bm => exact lock_goal_tagne hij hga hgb (by simp [ObjData.tag])
        | record fb =>
          exact lock_goal_tagne hij hga hgb (by simp [ObjData.tag])
      case _ => exact absurd hchk (by simp)
    case _ => exact absurd hchk (by simp)
  case _ ta hga =>
    -- date node on the left
    simp only [Option.some.injEq] at hchk
    subst hchk
    cases db with
    | date tb =>
      cases hlk1 : seenLookup s1 i with
      | some cached => exact lock_goal_hit hij hga hgb rfl hlkeq hlk1
      | none =>
        have hlk2 : seenLookup s2 i = none := hlkeq ▸ hlk1
        refine lock_of_mark (r := decide (ta = tb)) (j := j) (by simp) ?_ ?_
        · rw [deepEqualF_eval_date hij hga hgb hlk1]
        · rw [deepEqualF_eval_date hij hga hgb hlk2]
    | arr bs => exact lock_goal_tagne hij hga hgb (by simp [ObjData.tag])
    | regexp sb flb =>
      exact lock_goal_tagne hij hga hgb (by simp [ObjData.tag])
    | set bs => exact lock_goal_tagne hij hga hgb (by simp [ObjData.tag])
    | map bm => exact lock_goal_tagne hij hga hgb (by simp [ObjData.tag])
    | record fb => exact lock_goal_tagne hij hga hgb (by simp [ObjData.tag])
  case _ so fl hga =>
    -- regexp node on the left
    simp only [Option.some.injEq] at hchk
    subst hchk
    cases db with
    | regexp sb flb =>
      cases hlk1 : seenLookup s1 i with
      | some cached => exact lock_goal_hit hij hga hgb rfl hlkeq hlk1
      | none =>
        have hlk2 : seenLookup s2 i = none := hlkeq ▸ hlk1
        refine lock_of_mark (r := decide (so = sb) && decide (fl = flb))
            (j := j) (by simp) ?_ ?_
        · rw [deepEqualF_eval_regexp hij hga hgb hlk1]
        · rw [deepEqualF_eval_regexp hij hga hgb hlk2]
    | arr bs => exact lock_goal_tagne hij hga hgb (by simp [ObjData.tag])
    | date tb => exact lock_goal_tagne hij hga hgb (by simp [ObjData.tag])
    | set bs => exact lock_goal_tagne hij hga hgb (by simp [ObjData.tag])
    | map bm => exact lock_goal_tagne hij hga hgb (by simp [ObjData.tag])
    | record fb => exact lock_goal_tagne hij hga hgb (by simp [ObjData.tag])
  case _ elems hga =>
    -- set node on the left
    split at hchk
    case _ ls hls =>
      split at hchk
      case _ hnd =>
        replace hchk : i :: ls = la := Option.some.inj hchk
        subst hchk
        cases db with
        | set bs =>
          cases hlk1 : seenLookup s1 i with
          | some cached => exact lock_goal_hit hij hga hgb rfl hlkeq hlk1
          | none =>
            have hlk2 : seenLookup s2 i = none := hlkeq ▸ hlk1
            have hfls : ls.length < f := by
              simp only [List.length_cons] at hfuel; omega
            have hagls : SeenAgree ls (s1 ++ [(i, j)]) (s2 ++ [(i, j)]) :=
              (hag.mono (fun x hx => List.mem_cons.mpr (Or.inr hx))).push _
            by_cases hlen : elems.length = bs.length
            · obtain ⟨r, t, he1, he2, hsub⟩ :=
                setAllC_lock hC elems ls bs (s1 ++ [(i, j)]) (s2 ++ [(i, j)])
                  f hls hfls hagls
              refine ⟨r, (i, j) :: t, ?_, ?_, ?_⟩
              · rw [deepEqualF_eval_set hij hga hgb hlk1, if_pos hlen, he1,
                  List.append_assoc]
                rfl
              · rw [deepEqualF_eval_set hij hga hgb hlk2, if_pos hlen, he2,
                  List.append_assoc]
                rfl
              · intro p hp
                rcases List.mem_cons.mp hp with hp | hp
                · subst hp; exact List.mem_cons_self i ls
                · exact List.mem_cons.mpr (Or.inr (hsub p hp))
            · refine lock_of_mark (r := false) (j := j)
                (List.mem_cons_self i ls) ?_ ?_
              · rw [deepEqualF_eval_set hij hga hgb hlk1, if_neg hlen]
              · rw [deepEqualF_eval_set hij hga hgb hlk2, if_neg hlen]
        | arr bs => exact lock_goal_tagne hij hga hgb (by simp [ObjData.tag])
        | date tb => exact lock_goal_tagne hij hga hgb (by simp [ObjData.tag])
        | regexp sb flb =>
          exact lock_goal_tagne hij hga hgb (by simp [ObjData.tag])
        | map bm => exact lock_goal_tagne hij hga hgb (by simp [ObjData.tag])
        | record fb =>
          exact lock_goal_tagne hij hga hgb (by simp [ObjData.tag])
      case _ => exact absurd hchk (by simp)
    case _ => exact absurd hchk (by simp)
  case _ entries hga =>
    -- map node on the left
    split at hchk
    case _ ls hls =>
      split at hchk
      case _ hnd =>
        replace hchk : i :: ls = la := Option.some.inj hchk
        subst hchk
        cases db with
        | map bm =>
          cases hlk1 : seenLookup s1 i with
          | some cached => exact lock_goal_hit hij hga hgb rfl hlkeq hlk1
          | none =>
            have hlk2 : seenLookup s2 i = none := hlkeq ▸ hlk1
            have hfls : ls.length < f := by
              simp only [List.length_cons] at hfuel; omega
            have hagls : SeenAgree ls (s1 ++ [(i, j)]) (s2 ++ [(i, j)]) :=
              (hag.mono (fun x hx => List.mem_cons.mpr (Or.inr hx))).push _
            by_cases hlen : entries.length = bm.length
            · obtain ⟨r, t, he1, he2, hsub⟩ :=
                mapAllC_lock hC entries ls bm (s1 ++ [(i, j)])
                  (s2 ++ [(i, j)]) f hls hfls hagls
              refine ⟨r, (i, j) :: t, ?_, ?_, ?_⟩
              · rw [deepEqualF_eval_map hij hga hgb hlk1, if_pos hlen, he1,
                  List.append_assoc]
                rfl
              · rw [deepEqualF_eval_map hij hga hgb hlk2, if_pos hlen, he2,
                  List.append_assoc]
                rfl
              · intro p hp
                rcases List.mem_cons.mp hp with hp | hp
                · subst hp; exact List.mem_cons_self i ls
                · exact List.mem_cons.mpr (Or.inr (hsub p hp))
            · refine lock_of_mark (r := false) (j := j)
                (List.mem_cons_self i ls) ?_ ?_
              · rw [deepEqualF_eval_map hij hga hgb hlk1, if_neg hlen]
              · rw [deepEqualF_eval_map hij hga hgb hlk2, if_neg hlen]
        | arr bs => exact lock_goal_tagne hij hga hgb (by simp [ObjData.tag])
        | date tb => exact lock_goal_tagne hij hga hgb (by simp [ObjData.tag])
        | regexp sb flb =>
          exact lock_goal_tagne hij hga hgb (by simp [ObjData.tag])
        | set bs => exact lock_goal_tagne hij hga hgb (by simp [ObjData.tag])
        | record fb =>
          exact lock_goal_tagne hij hga hgb (by simp [ObjData.tag])
      case _ => exact absurd hchk (by simp)
    case _ => exact absurd hchk (by simp)
  case _ fields hga =>
    -- record node on the left
    split at hchk
    case _ ls hls =>
      split at hchk
      case _ hnd =>
        replace hchk : i :: ls = la := Option.some.inj hchk
        subst hchk
        cases db with
        | record fb =>
          cases hlk1 : seenLookup s1 i with
          | some cached => exact lock_goal_hit hij hga hgb rfl hlkeq hlk1
          | none =>
            have hlk2 : seenLookup s2 i = none := hlkeq ▸ hlk1
            have hfls : ls.length < f := by
              simp only [List.length_cons] at hfuel; omega
            have hagls : SeenAgree ls (s1 ++ [(i, j)]) (s2 ++ [(i, j)]) :=
              (hag.mono (fun x hx => List.mem_cons.mpr (Or.inr hx))).push _
            obtain ⟨r, t, he1, he2, hsub⟩ :=
              recordC_lock hC fields ls fb (s1 ++ [(i, j)]) (s2 ++ [(i, j)])
                f hls hfls hagls
            have hmemt : ∀ p ∈ (i, j) :: t, p.1 ∈ i :: ls := by
              intro p hp
              rcases List.mem_cons.mp hp with hp | hp
              · subst hp; exact List.mem_cons_self i ls
              · exact List.mem_cons.mpr (Or.inr (hsub p hp))
            cases r with
            | true =>
              refine ⟨decide (fields.length = fb.length), (i, j) :: t,
                ?_, ?_, hmemt⟩
              · rw [deepEqualF_eval_record hij hga hgb hlk1, he1]
                simp [List.append_assoc]
              · rw [deepEqualF_eval_record hij hga hgb hlk2, he2]
                simp [List.append_assoc]
            | false =>
              refine ⟨false, (i, j) :: t, ?_, ?_, hmemt⟩
              · rw [deepEqualF_eval_record hij hga hgb hlk1, he1]
                simp [List.append_assoc]
              · rw [deepEqualF_eval_record hij hga hgb hlk2, he2]
                simp [List.append_assoc]
        | arr bs => exact lock_goal_tagne hij hga hgb (by simp [ObjData.tag])
        | date tb => exact lock_goal_tagne hij hga hgb (by simp [ObjData.tag])
        | regexp sb flb =>
          exact lock_goal_tagne hij hga hgb (by simp [ObjData.tag])
        | set bs => exact lock_goal_tagne hij hga hgb (by simp [ObjData.tag])
        | map bm => exact lock_goal_tagne hij hga hgb (by simp [ObjData.tag])
      case _ => exact absurd hchk (by simp)
    case _ => exact absurd hchk (by simp)
  case _ => exact absurd hchk (by simp)

lemma lockOn_all (h : Heap) : ∀ n, LockOn h n := by
  intro n
  induction n with
  | zero => exact lockOn_zero h
  | succ n ih => exact lockOn_succ ih

/-! ## Fuel monotonicity

A run that returns a verdict at some fuel returns the same verdict and
memo at any larger fuel: fuel only cuts off deeper recursion, it never
changes a completed computation. -/

def CmpFuelLe (k k' : Cmp) : Prop :=
  ∀ a b s out, k a b s = some out → k' a b s = some out

lemma eqListC_fmono {k k' : Cmp} (hkk : CmpFuelLe k k') :
    ∀ vs ws s out, eqListC k vs ws s = some out →
      eqListC k' vs ws s = some out := by
  intro vs
  induction vs with
  | nil => intro ws s out he; simpa [eqListC] using he
  | cons v vs ih =>
    intro ws s out he
    cases ws with
    | nil => simpa [eqListC] using he
    | cons w ws =>
      simp only [eqListC] at he ⊢
      cases hk : k v w s with
      | none => rw [hk] at he; exact absurd he (by simp)
      | some p =>
        obtain ⟨r, s'⟩ := p
        cases r with
        | true =>
          simp only [hk] at he
          simp only [hkk v w s (true, s') hk]
          exact ih ws s' out he
        | false =>
          simp only [hk] at he
          simp only [hkk v w s (false, s') hk]
          exact he

lemma setFindC_fmono {k k' : Cmp} (hkk : CmpFuelLe k k') (av : JSVal) :
    ∀ bs s out, setFindC k av bs s = some out →
      setFindC k' av bs s = some out := by
  intro bs
  induction bs with
  | nil => intro s out he; simpa [setFindC] using he
  | cons bv bs ih =>
    intro s out he
    simp only [setFindC] at he ⊢
    cases hk : k av bv s with
    | none => rw [hk] at he; exact absurd he (by simp)
    | some p =>
      obtain ⟨r, s'⟩ := p
      cases r with
      | true =>
        simp only [hk] at he
        simp only [hkk av bv s (true, s') hk]
        exact he
      | false =>
        simp only [hk] at he
        simp only [hkk av bv s (false, s') hk]
        exact ih s' out he

lemma setAllC_fmono {k k' : Cmp} (hkk : CmpFuelLe k k') :
    ∀ vs bs s out, setAllC k vs bs s = some out →
      setAllC k' vs bs s = some out := by
  intro vs
  induction vs with
  | nil => intro bs s out he; simpa [setAllC] using he
  | cons av vs ih =>
    intro bs s out he
    simp only [setAllC] at he ⊢
    cases hk : setFindC k av bs s with
    | none => rw [hk] at he; exact absurd he (by simp)
    | some p =>
      obtain ⟨r, s'⟩ := p
      cases r with
      | true =>
        simp only [hk] at he
        simp only [setFindC_fmono hkk av bs s (true, s') hk]
        exact ih bs s' out he
      | false =>
        simp only [hk] at he
        simp only [setFindC_fmono hkk av bs s (false, s') hk]
        exact he

lemma mapFindC_fmono {k k' : Cmp} (hkk : CmpFuelLe k k') (ak av : JSVal) :
    ∀ bs s out, mapFindC k ak av bs s = some out →
      mapFindC k' ak av bs s = some out := by
  intro bs
  induction bs with
  | nil => intro s out he; simpa [mapFindC] using he
  | cons b bs ih =>
    obtain ⟨bk, bv⟩ := b
    intro s out he
    simp only [mapFindC] at he ⊢
    cases hk : k ak bk s with
    | none => rw [hk] at he; exact absurd he (by simp)
    | some p =>
      obtain ⟨r1, s1⟩ := p
      cases r1 with
      | false =>
        simp only [hk] at he
        simp only [hkk ak bk s (false, s1) hk]
        exact ih s1 out he
      | true =>
        simp only [hk] at he
        simp only [hkk ak bk s (true, s1) hk]
        cases hk2 : k av bv s1 with
        | none => rw [hk2] at he; exact absurd he (by simp)
        | some q =>
          obtain ⟨r2, s2⟩ := q
          cases r2 with
          | true =>
            simp only [hk2] at he
            simp only [hkk av bv s1 (true, s2) hk2]
            exact he
          | false =>
            simp only [hk2] at he
            simp only [hkk av bv s1 (false, s2) hk2]
            exact ih s2 out he

lemma mapAllC_fmono {k k' : Cmp} (hkk : CmpFuelLe k k') :
    ∀ entries bs s out, mapAllC k entries bs s = some out →
      mapAllC k' entries bs s = some out := by
  intro entries
  induction entries with
  | nil => intro bs s out he; simpa [mapAllC] using he
  | cons e rest ih =>
    obtain ⟨ak, av⟩ := e
    intro bs s out he
    simp only [mapAllC] at he ⊢
    cases hk : mapFindC k ak av bs s with
    | none => rw [hk] at he; exact absurd he (by simp)
    | some p =>
      obtain ⟨r, s'⟩ := p
      cases r with
      | true =>
        simp only [hk] at he
        simp only [mapFindC_fmono hkk ak av bs s (true, s') hk]
        exact ih bs s' out he
      | false =>
        simp only [hk] at he
        simp only [mapFindC_fmono hkk ak av bs s (false, s') hk]
        exact he

lemma recordC_fmono {k k' : Cmp} (hkk : CmpFuelLe k k')
    (fb : List (String × JSVal)) :
    ∀ fa s out, recordC k fb fa s = some out →
      recordC k' fb fa s = some out := by
  intro fa
  induction fa with
  | nil => intro s out he; simpa [recordC] using he
  | cons p fa ih =>
    obtain ⟨key, av⟩ := p
    intro s out he
    simp only [recordC] at he ⊢
    cases hlk : protoLookup fb key with
    | none => simp only [hlk] at he ⊢; exact he
    | some bv =>
      simp only [hlk] at he ⊢
      cases hk : k av bv s with
      | none => rw [hk] at he; exact absurd he (by simp)
      | some q =>
        obtain ⟨r, s'⟩ := q
        cases r with
        | true =>
          simp only [hk] at he
          simp only [hkk av bv s (true, s') hk]
          exact ih s' out he
        | false =>
          simp only [hk] at he
          simp only [hkk av bv s (false, s') hk]
          exact he

lemma deepEqualF_eval_noleft {h : Heap} {f i j : Nat} {s : Seen}
    (hij : i ≠ j) (hga : h.get? i = none) :
    deepEqualF h (f + 1) (.obj i) (.obj j) s = some (false, s) := by
  simp only [deepEqualF, objIs_obj_ne hij, Bool.false_eq_true, if_false, hga]

lemma deepEqualF_fuel_succ {h : Heap} :
    ∀ f {a b : JSVal} {s : Seen} {out : Bool × Seen},
      deepEqualF h f a b s = some out →
      deepEqualF h (f + 1) a b s = some out := by
  intro f
  induction f with
  | zero => intro a b s out he; simp [deepEqualF] at he
  | succ f ih =>
    intro a b s out he
    have hkk : CmpFuelLe (deepEqualF h f) (deepEqualF h (f + 1)) :=
      fun a b s out h1 => ih h1
    cases hid : objIs a b with
    | true =>
      rw [deepEqualF_eval_true hid] at he
      rw [deepEqualF_eval_true hid]
      exact he
    | false =>
      by_cases hobj : (∃ ia, a = JSVal.obj ia) ∧ ∃ ib, b = JSVal.obj ib
      case neg =>
        have hno : ∀ ia ib, ¬(a = .obj ia ∧ b = .obj ib) := fun ia ib hh =>
          hobj ⟨⟨ia, hh.1⟩, ⟨ib, hh.2⟩⟩
        rw [deepEqualF_eval_nonobj hno hid] at he
        rw [deepEqualF_eval_nonobj hno hid]
        exact he
      case pos =>
        obtain ⟨⟨ia, rfl⟩, ⟨ib, rfl⟩⟩ := hobj
        have hij : ia ≠ ib := by
          intro hh; subst hh; simp [objIs] at hid
        cases hga : h.get? ia with
        | none =>
          rw [deepEqualF_eval_noleft hij hga] at he
          rw [deepEqualF_eval_noleft hij hga]
          exact he
        | some da =>
          cases hgb : h.get? ib with
          | none =>
            rw [deepEqualF_eval_noright hij hgb] at he
            rw [deepEqualF_eval_noright hij hgb]
            exact he
          | some db =>
            by_cases htag : da.tag = db.tag
            case neg =>
              rw [deepEqualF_eval_tagne hij hga hgb htag] at he
              rw [deepEqualF_eval_tagne hij hga hgb htag]
              exact he
            case pos =>
              cases hlk : seenLookup s ia with
              | some cached =>
                rw [deepEqualF_eval_hit hij hga hgb htag hlk] at he
                rw [deepEqualF_eval_hit hij hga hgb htag hlk]
                exact he
              | none =>
                cases da with
                | arr as =>
                  cases db with
                  | arr bs =>
                    rw [deepEqualF_eval_arr hij hga hgb hlk] at he
                    rw [deepEqualF_eval_arr hij hga hgb hlk]
                    by_cases hlen : as.length = bs.length
                    · rw [if_pos hlen] at he
                      rw [if_pos hlen]
                      exact eqListC_fmono hkk as bs (s ++ [(ia, ib)]) out he
                    · rw [if_neg hlen] at he
                      rw [if_neg hlen]
                      exact he
                  | date tb => exact absurd htag (by simp [ObjData.tag])
                  | regexp sb flb => exact absurd htag (by simp [ObjData.tag])
                  | set bs => exact absurd htag (by simp [ObjData.tag])
                  | map bm => exact absurd htag (by simp [ObjData.tag])
                  | record fb => exact absurd htag (by simp [ObjData.tag])
                | date ta =>
                  cases db with
                  | date tb =>
                    rw [deepEqualF_eval_date hij hga hgb hlk] at he
                    rw [deepEqualF_eval_date hij hga hgb hlk]
                    exact he
                  | arr bs => exact absurd htag (by simp [ObjData.tag])
                  | regexp sb flb => exact absurd htag (by simp [ObjData.tag])
                  | set bs => exact absurd htag (by simp [ObjData.tag])
                  | map bm => exact absurd htag (by simp [ObjData.tag])
                  | record fb => exact absurd htag (by simp [ObjData.tag])
                | regexp sa fla =>
                  cases db with
                  | regexp sb flb =>
                    rw [deepEqualF_eval_regexp hij hga hgb hlk] at he
                    rw [deepEqualF_eval_regexp hij hga hgb hlk]
                    exact he
                  | arr bs => exact absurd htag (by simp [ObjData.tag])
                  | date tb => exact absurd htag (by simp [ObjData.tag])
                  | set bs => exact absurd htag (by simp [ObjData.tag])
                  | map bm => exact absurd htag (by simp [ObjData.tag])
                  | record fb => exact absurd htag (by simp [ObjData.tag])
                | set as =>
                  cases db with
                  | set bs =>
                    rw [deepEqualF_eval_set hij hga hgb hlk] at he
                    rw [deepEqualF_eval_set hij hga hgb hlk]
                    by_cases hlen : as.length = bs.length
                    · rw [if_pos hlen] at he
                      rw [if_pos hlen]
                      exact setAllC_fmono hkk as bs (s ++ [(ia, ib)]) out he
                    · rw [if_neg hlen] at he
                      rw [if_neg hlen]
                      exact he
                  | arr bs => exact absurd htag (by simp [ObjData.tag])
                  | date tb => exact absurd htag (by simp [ObjData.tag])
                  | regexp sb flb => exact absurd htag (by simp [ObjData.tag])
                  | map bm => exact absurd htag (by simp [ObjData.tag])
                  | record fb => exact absurd htag (by simp [ObjData.tag])
                | map am =>
                  cases db with
                  | map bm =>
                    rw [deepEqualF_eval_map hij hga hgb hlk] at he
                    rw [deepEqualF_eval_map hij hga hgb hlk]
                    by_cases hlen : am.length = bm.length
                    · rw [if_pos hlen] at he
                      rw [if_pos hlen]
                      exact mapAllC_fmono hkk am bm (s ++ [(ia, ib)]) out he
                    · rw [if_neg hlen] at he
                      rw [if_neg hlen]
                      exact he
                  | arr bs => exact absurd htag (by simp [ObjData.tag])
                  | date tb => exact absurd htag (by simp [ObjData.tag])
                  | regexp sb flb => exact absurd htag (by simp [ObjData.tag])
                  | set bs => exact absurd htag (by simp [ObjData.tag])
                  | record fb => exact absurd htag (by simp [ObjData.tag])
                | record fa =>
                  cases db with
                  | record fb =>
                    rw [deepEqualF_eval_record hij hga hgb hlk] at he
                    rw [deepEqualF_eval_record hij hga hgb hlk]
                    cases hrc : recordC (deepEqualF h f) fb fa
                        (s ++ [(ia, ib)]) with
                    | none => rw [hrc] at he; exact absurd he (by simp)
                    | some p =>
                      obtain ⟨r, s'⟩ := p
                      cases r with
                      | true =>
                        simp only [hrc] at he
                        simp only [recordC_fmono hkk fb fa (s ++ [(ia, ib)])
                          (true, s') hrc]
                        exact he
                      | false =>
                        simp only [hrc] at he
                        simp only [recordC_fmono hkk fb fa (s ++ [(ia, ib)])
                          (false, s') hrc]
                        exact he
                  | arr bs => exact absurd htag (by simp [ObjData.tag])
                  | date tb => exact absurd htag (by simp [ObjData.tag])
                  | regexp sb flb => exact absurd htag (by simp [ObjData.tag])
                  | set bs => exact absurd htag (by simp [ObjData.tag])
                  | map bm => exact absurd htag (by simp [ObjData.tag])

lemma deepEqualF_fuel_le {h : Heap} {f1 f2 : Nat} (hle : f1 ≤ f2)
    {a b : JSVal} {s : Seen} {out : Bool × Seen}
    (he : deepEqualF h f1 a b s = some out) :
    deepEqualF h f2 a b s = some out := by
  induction hle with
  | refl => exact he
  | step hm ih => exact deepEqualF_fuel_succ _ ih

/-! ## Canonical per-key reading of the record branch on `chkT` trees -/

/-- On a `chkT`-certified left value, any sufficiently fueled run whose
memo avoids the value's nodes returns the canonical top-level verdict and
marks only the value's own nodes. -/
lemma deepEqualF_canonT {h : Heap} {n : Nat} {av : JSVal} {l1 : List Nat}
    (h1 : chkT h n av = some l1) :
    ∀ (bv : JSVal) fuel s, l1.length < fuel → (∀ x ∈ l1, x ∉ seenKeys s) →
    ∃ t, deepEqualF h fuel av bv s = some (deepEqual h av bv, s ++ t) ∧
      ∀ p ∈ t, p.1 ∈ l1 := by
  intro bv fuel s hfuel havoid
  have hag : SeenAgree l1 s [] := by
    intro x hx
    rw [seenLookup_eq_none.mpr (havoid x hx)]
    simp [seenLookup]
  obtain ⟨r, t, he1, he2, hsub⟩ :=
    lockOn_all h n av l1 h1 bv (l1.length + 1) s [] (Nat.lt_succ_self _) hag
  have hlen1 : l1.length ≤ h.length :=
    nodup_lt_length_le (chkT_nodup h1) (chkT_bound n h1)
  have he2' : deepEqualF h (h.length + 1) av bv [] = some (r, t) := by
    have hmv : deepEqualF h (h.length + 1) av bv [] = some (r, [] ++ t) :=
      deepEqualF_fuel_le (by omega) he2
    simpa using hmv
  have hr : deepEqual h av bv = r := deepEqual_unfold_some he2'
  have he1' : deepEqualF h fuel av bv s = some (r, s ++ t) :=
    deepEqualF_fuel_le (by omega) he1
  exact ⟨t, hr ▸ he1', hsub⟩

lemma recordC_canonT {h : Heap} {n : Nat} :
    ∀ fa ls (fb : List (String × JSVal)) s fuel,
      chkListC (chkT h n) (fa.map Prod.snd) = some ls →
      ls.length < fuel → (∀ x ∈ ls, x ∉ seenKeys s) → ls.Nodup →
      ∃ t, recordC (deepEqualF h fuel) fb fa s
          = some (recordEqBool h fb fa, s ++ t) ∧ ∀ p ∈ t, p.1 ∈ ls := by
  intro fa
  induction fa with
  | nil =>
    intro ls fb s fuel _ _ _ _
    exact ⟨[], by simp [recordC, recordEqBool], by simp⟩
  | cons p fa ih =>
    obtain ⟨key, av⟩ := p
    intro ls fb s fuel hls hfuel havoid hnd
    simp only [List.map_cons, chkListC] at hls
    cases h1 : chkT h n av with
    | none => rw [h1] at hls; exact absurd hls (by simp)
    | some l1 =>
      cases h2 : chkListC (chkT h n) (fa.map Prod.snd) with
      | none => rw [h1, h2] at hls; exact absurd hls (by simp)
      | some l2 =>
        rw [h1, h2] at hls
        simp only [Option.some.injEq] at hls
        subst hls
        cases hlk : protoLookup fb key with
        | none =>
          exact ⟨[], by simp [recordC, recordEqBool, hlk], by simp⟩
        | some bv =>
          have hf1 : l1.length < fuel := by
            have := List.length_append l1 l2 ▸ hfuel; omega
          have hav1 : ∀ x ∈ l1, x ∉ seenKeys s := fun x hx =>
            havoid x (List.mem_append.mpr (Or.inl hx))
          obtain ⟨t1, ht1, hsub1⟩ := deepEqualF_canonT h1 bv fuel s hf1 hav1
          simp only [recordC, hlk, ht1, recordEqBool]
          cases hd : deepEqual h av bv with
          | false =>
            exact ⟨t1, by simp, fun p hp =>
              List.mem_append.mpr (Or.inl (hsub1 p hp))⟩
          | true =>
            have hf2 : l2.length < fuel := by
              have := List.length_append l1 l2 ▸ hfuel; omega
            have hav2 : ∀ x ∈ l2, x ∉ seenKeys (s ++ t1) := by
              intro x hx
              rw [seenKeys_append, List.mem_append]
              rintro (hin | hin)
              · exact havoid x (List.mem_append.mpr (Or.inr hx)) hin
              · obtain ⟨q, hq, hqx⟩ := List.mem_map.mp hin
                have hx1 : x ∈ l1 := hqx ▸ hsub1 q hq
                have hnd2 : (l1 ++ l2).Nodup := hnd
                rw [List.nodup_append] at hnd2
                exact hnd2.2.2 hx1 hx
            obtain ⟨t2, ht2, hsub2⟩ :=
              ih l2 fb (s ++ t1) fuel h2 hf2 hav2
                ((List.nodup_append.mp hnd).2.1)
            refine ⟨t1 ++ t2, ?_, ?_⟩
            · simp only [ht2, Bool.true_and, List.append_assoc]
            · intro p hp
              rcases List.mem_append.mp hp with hp | hp
              · exact List.mem_append.mpr (Or.inl (hsub1 p hp))
              · exact List.mem_append.mpr (Or.inr (hsub2 p hp))

/-- The record branch on a `chkT`-certified left record: the comparator's
verdict is the per-key loop's verdict (each key read at top level) and
the key-count check. -/
lemma den_record_T {h : Heap} {n i j : Nat} {la : List Nat}
    {fa fb : List (String × JSVal)}
    (hij : i ≠ j) (hchk : chkT h n (.obj i) = some la)
    (hga : h.get? i = some (.record fa)) (hgb : h.get? j = some (.record fb)) :
    deepEqual h (.obj i) (.obj j)
      = (recordEqBool h fb fa && decide (fa.length = fb.length)) := by
  have hlalen : la.length ≤ h.length :=
    nodup_lt_length_le (chkT_nodup hchk) (chkT_bound n hchk)
  cases n with
  | zero => simp [chkT] at hchk
  | succ n =>
    simp only [chkT, hga] at hchk
    split at hchk
    case _ ls hls =>
      split at hchk
      case _ hnd =>
        replace hchk : i :: ls = la := Option.some.inj hchk
        subst hchk
        have hlslen : ls.length < h.length := by
          simp only [List.length_cons] at hlalen; omega
        have havd : ∀ x ∈ ls, x ∉ seenKeys [(i, j)] := by
          intro x hx
          simp only [seenKeys, List.map_cons, List.map_nil,
            List.mem_singleton]
          rintro rfl
          exact (List.nodup_cons.mp hnd).1 hx
        obtain ⟨t0, ht0, _⟩ :=
          recordC_canonT fa ls fb [(i, j)] h.length
            hls hlslen havd (List.nodup_cons.mp hnd).2
        have heval :=
          deepEqualF_eval_record (f := h.length) (s := []) hij hga hgb
            (by simp [seenLookup])
        rw [show ([] : Seen) ++ [(i, j)] = [(i, j)] from rfl] at heval
        rw [ht0] at heval
        cases hrb : recordEqBool h fb fa with
        | true =>
          rw [hrb] at heval
          rw [deepEqual_unfold_some heval]
          simp
        | false =>
          rw [hrb] at heval
          rw [deepEqual_unfold_some heval]
          simp
      case _ => exact absurd hchk (by simp)
    case _ => exact absurd hchk (by simp)

/-! ## Store Core (src/create-store.ts)

Listeners are opaque callbacks identified by `Nat`; the `Set` of listeners
is a duplicate-free insertion-ordered list.  `listener(currentState)`
calls are modelled as an event trace `(listener id, state passed)`; the
state passed is read from the state cell after the swap, exactly as
`listeners.forEach((l) => l(currentState))` runs after
`currentState = nextState`.  A reducer that throws is modelled as
returning `Except.error`; `baseDispatch` then propagates the error with
the state cell untouched (the exception fires before the assignment). -/

abbrev Events := List (Nat × JSVal)

structure StoreState where
  currentState : JSVal
  listeners : List Nat
deriving Repr, DecidableEq

abbrev Reducer := JSVal → JSVal → Except String JSVal

/-- `baseDispatch` from createStore: run the reducer; on success, if the
result is not deep-equal to the current state, swap the cell and notify
every listener with the new state; otherwise do nothing. -/
def baseDispatch (h : Heap) (reducer : Reducer) (st : StoreState)
    (action : JSVal) : StoreState × Events × Option String :=
  match reducer st.currentState action with
  | .error e => (st, [], some e)
  | .ok nextState =>
    if !(deepEqual h nextState st.currentState) then
      (⟨nextState, st.listeners⟩,
        st.listeners.map (fun l => (l, nextState)), none)
    else (st, [], none)

def getState (st : StoreState) : JSVal := st.currentState

/-- `subscribe`: `listeners.add(listener)` — a `Set`, so re-adding an
already-registered listener is a no-op. -/
def subscribe (st : StoreState) (l : Nat) : StoreState :=
  if l ∈ st.listeners then st else ⟨st.currentState, st.listeners ++ [l]⟩

/-- The `unsubscribe` capability returned by `subscribe`:
`listeners.delete(listener)`. -/
def unsubscribe (st : StoreState) (l : Nat) : StoreState :=
  ⟨st.currentState, st.listeners.erase l⟩

/-! ## Middleware Pipeline (src/apply-middleware.ts)

A dispatch function acts on `MwState` (store state plus the
`isReducing` guard flag of the `applyMiddleware` closure) and yields the
new state, the notification trace, and `some errorMessage` when the call
throws.  Because `guardedDispatch` invokes `store.dispatch(action)` by
property lookup at call time — and `createStore` reassigns
`store.dispatch` to the composed chain — the createStore knot is modelled
by the fuel-indexed `createStoreDispatchF`, whose fuel-0 approximation is
the placeholder dispatch installed before construction completes.
Thunk invocation (`action(dispatch, store.getState)`) is delegated to an
environment `tenv` mapping function ids to their behavior. -/

structure MwState where
  store : StoreState
  isReducing : Bool
deriving Repr, DecidableEq

abbrev DispatchFn := JSVal → MwState → MwState × Events × Option String

def reentrancyMsg : String :=
  "Dispatching while a reducer is executing is not allowed."

def constructionMsg : String :=
  "Dispatching while constructing middleware is not allowed."

/-- The store's own dispatch arrow `(action) => baseDispatch(action)`,
lifted to `MwState` (it does not touch the guard flag). -/
def storeDispatch (h : Heap) (reducer : Reducer) : DispatchFn := fun a ms =>
  let r := baseDispatch h reducer ms.store a
  (⟨r.1, ms.isReducing⟩, r.2.1, r.2.2)

/-- `guardedDispatch`: throw if `isReducing` is already set (before the
`try`, so the flag is left as-is); otherwise set the flag, run the
store's dispatch, and reset the flag in `finally` — also when the inner
call threw. -/
def guardedDispatch (inner : DispatchFn) : DispatchFn := fun a ms =>
  if ms.isReducing then (ms, [], some reentrancyMsg)
  else
    let r := inner a ⟨ms.store, true⟩
    (⟨r.1.store, false⟩, r.2.1, r.2.2)

/-- Behavior of thunk callables: a thunk receives the pipeline's outer
dispatch and acts on the current state. -/
abbrev ThunkEnv := Nat → DispatchFn → MwState → MwState × Events × Option String

/-- The capability object handed to each middleware constructor. -/
structure Cap where
  getState : MwState → JSVal
  dispatch : DispatchFn

/-- The capability's dispatch: a function-typed action is invoked as a
thunk with `(dispatch, store.getState)`; anything else is forwarded to
the outer composed dispatch. -/
def capDispatch (tenv : ThunkEnv) (outer : DispatchFn) : DispatchFn :=
  fun a ms =>
    match a with
    | .fn fid => tenv fid outer ms
    | _ => outer a ms

abbrev Mw := Cap → DispatchFn → DispatchFn

/-- `chain.reduceRight((next, mw) => mw(next), base)`. -/
def chainFold (cap : Cap) (mws : List Mw) (base : DispatchFn) : DispatchFn :=
  (mws.map (fun mw => mw cap)).foldr (fun w next => w next) base

/-- The placeholder installed in the `dispatch` variable before the chain
is built: it throws on any call. -/
def placeholderDispatch : DispatchFn := fun _ ms => (ms, [], some constructionMsg)

/-- One unfolding level of `applyMiddleware`: `storeDispatchNow` is the
value `store.dispatch` resolves to when `guardedDispatch` reads it at
call time, and `capOuterNow` the value of the closed-over `dispatch`
variable when the capability is used. -/
def applyMiddlewareAt (tenv : ThunkEnv) (mws : List Mw)
    (storeDispatchNow capOuterNow : DispatchFn) : DispatchFn :=
  chainFold ⟨fun ms => ms.store.currentState, capDispatch tenv capOuterNow⟩
    mws (guardedDispatch storeDispatchNow)

/-- The effective dispatch of `createStore(reducer, initialState, mws)`:
with middlewares, `store.dispatch` is the composed chain, and both
late-bound references inside `applyMiddleware` resolve to that same
composed chain — the knot is approximated by fuel, bottoming out at the
pre-construction placeholder. -/
def createStoreDispatchF (h : Heap) (reducer : Reducer) (tenv : ThunkEnv)
    (mws : List Mw) : Nat → DispatchFn
  | 0 => placeholderDispatch
  | n + 1 =>
    if mws.length > 0 then
      applyMiddlewareAt tenv mws
        (createStoreDispatchF h reducer tenv mws n)
        (createStoreDispatchF h reducer tenv mws n)
    else storeDispatch h reducer

lemma chainFold_pass {cap : Cap} {mws : List Mw} {base : DispatchFn}
    (hpass : ∀ mw ∈ mws, ∀ c next, mw c next = next) :
    chainFold cap mws base = base := by
  induction mws with
  | nil => rfl
  | cons mw rest ih =>
    simp only [chainFold, List.map_cons, List.foldr_cons]
    rw [hpass mw (List.mem_cons_self _ _) cap]
    exact ih (fun mw' hm c next => hpass mw' (List.mem_cons.mpr (Or.inr hm)) c next)

/-! ## Concrete fixtures -/

/-- Heap for the increment scenario: `{count:0}`, `{count:1}`, and the
action `{type:"inc"}`. -/
def hInc : Heap :=
  [ .record [("count", .num (.int 0))],
    .record [("count", .num (.int 1))],
    .record [("type", .str "inc")] ]

/-- The `type` field of an action object. -/
def actionType (h : Heap) (a : JSVal) : Option JSVal :=
  match a with
  | .obj i =>
    match h.get? i with
    | some (.record f) => fieldLookup f "type"
    | _ => none
  | _ => none

/-- Reducer that increments `count` on action kind `"inc"` (over `hInc`,
where the reachable states are `{count:0}` and `{count:1}`). -/
def incReducer : Reducer := fun s a =>
  if actionType hInc a = some (.str "inc") then
    (if s = .obj 0 then .ok (.obj 1) else .ok s)
  else .ok s

/-- Heap with two distinct but structurally equal `{count:0}` records and
a `{type:"clone"}` action. -/
def hFresh : Heap :=
  [ .record [("count", .num (.int 0))],
    .record [("count", .num (.int 0))],
    .record [("type", .str "clone")] ]

/-- Reducer returning a freshly allocated but structurally equal state. -/
def cloneReducer : Reducer := fun _ _ => .ok (.obj 1)

/-- A reducer that throws. -/
def failReducer : Reducer := fun _ _ => .error "reducer failure"

/-- Two structurally identical self-referential records, and a
non-matching self-referential record. -/
def hCyc : Heap :=
  [ .record [("self", .obj 0)],
    .record [("self", .obj 1)],
    .record [("self", .obj 2), ("x", .num (.int 1))] ]

/-- Sets of equal cardinality with composite elements on which the
comparator is asymmetric: `{{a:1},{a:2}}` vs `{{a:1},{a:1}}`. -/
def setCexHeap : Heap :=
  [ .set [.obj 2, .obj 3],
    .set [.obj 4, .obj 5],
    .record [("a", .num (.int 1))],
    .record [("a", .num (.int 2))],
    .record [("a", .num (.int 1))],
    .record [("a", .num (.int 1))] ]

/-- Records on which the memo breaks the per-key reading: the left record
aliases one object under two keys. -/
def aliasHeap : Heap :=
  [ .record [("k1", .obj 2), ("k2", .obj 2)],
    .record [("k1", .obj 3), ("k2", .obj 4)],
    .record [], .record [], .record [] ]

/-- Two tree-shaped structurally equal records. -/
def treeHeap : Heap :=
  [ .record [("x", .num (.int 1))], .record [("x", .num (.int 1))] ]

/-- Records on which the prototype chain breaks both symmetry and the
own-key reading: `{toString: Object.prototype.toString}` vs `{foo: 1}`.
`"toString" in objB` is true for every plain object and
`objB["toString"]` is the inherited function, so the first compares
equal to the second but not conversely. -/
def protoCexHeap : Heap :=
  [ .record [("toString", .builtin "toString")],
    .record [("foo", .num (.int 1))] ]

/-- A middleware that forwards every action to `next` unchanged. -/
def passMw : Mw := fun _ next => next

/-- A thunk environment in which every thunk is a no-op (irrelevant to
the claims that use it). -/
def tenvNone : ThunkEnv := fun _ _ ms => (ms, [], none)

/-! ## Claims -/

/-- C1: the claim says a `createStore(reducer, initialState, middlewares)`
store with a non-empty, all-forwarding middleware chain dispatches a plain
action through the chain to the base dispatch and applies the reducer.
The code does the opposite: `guardedDispatch` reads the reassigned
`store.dispatch` at call time, so the chain re-enters itself and every
dispatch throws the re-entrancy error with the state unchanged and no
listener notified — at any knot depth `n + 2`, so this is the limit
behavior, not a fuel artifact. -/
theorem claim_C1_createStore_middleware_throws (h : Heap) (reducer : Reducer)
    (tenv : ThunkEnv) (mws : List Mw) (a : JSVal) (ms : MwState)
    (hne : mws ≠ []) (hpass : ∀ mw ∈ mws, ∀ c next, mw c next = next)
    (hflag : ms.isReducing = false) :
    ∀ n, createStoreDispatchF h reducer tenv mws (n + 2) a ms
      = (ms, [], some reentrancyMsg) := by
  have hlen : mws.length > 0 := List.length_pos.mpr hne
  intro n
  have hunfold : ∀ k, createStoreDispatchF h reducer tenv mws (k + 1)
      = guardedDispatch (createStoreDispatchF h reducer tenv mws k) := by
    intro k
    simp only [createStoreDispatchF, if_pos hlen, applyMiddlewareAt]
    exact chainFold_pass hpass
  rw [show n + 2 = (n + 1) + 1 from rfl, hunfold (n + 1), hunfold n]
  obtain ⟨store, flag⟩ := ms
  simp only at hflag
  subst hflag
  simp [guardedDispatch]

/-- C1 failing input: the README Quick-Start scenario
`createStore(incReducer, {count:0}, [passthrough])`, dispatching
`{type:"inc"}`: the call throws the re-entrancy error and the state stays
`{count:0}`, although the reducer maps `{count:0}` to the distinct state
`{count:1}` — the claim expects a normal return with `{count:1}`. -/
theorem claim_C1_witness :
    createStoreDispatchF hInc incReducer tenvNone [passMw] 5 (.obj 2)
        ⟨⟨.obj 0, [7]⟩, false⟩
      = (⟨⟨.obj 0, [7]⟩, false⟩, [], some reentrancyMsg) ∧
    incReducer (.obj 0) (.obj 2) = .ok (.obj 1) ∧
    deepEqual hInc (.obj 1) (.obj 0) = false :=
  ⟨claim_C1_createStore_middleware_throws hInc incReducer tenvNone [passMw]
      (.obj 2) ⟨⟨.obj 0, [7]⟩, false⟩ (by simp)
      (by
        intro mw hm c next
        have hmw : mw = passMw := by simpa using hm
        subst hmw; rfl)
      rfl 3,
    by rfl, by decide⟩

/-- C4: dispatch suppression — when the reducer's result is judged
deep-equal to the current state (e.g. a freshly allocated but structurally
equal object), `baseDispatch` neither writes the state cell nor notifies
any listener, and returns normally. -/
theorem claim_C4_suppression (h : Heap) (reducer : Reducer) (st : StoreState)
    (a nextState : JSVal)
    (hr : reducer st.currentState a = .ok nextState)
    (heq : deepEqual h nextState st.currentState = true) :
    baseDispatch h reducer st a = (st, [], none) := by
  simp [baseDispatch, hr, heq]

theorem claim_C4_witness :
    cloneReducer (.obj 0) (.obj 2) = .ok (.obj 1) ∧
    deepEqual hFresh (.obj 1) (.obj 0) = true ∧
    baseDispatch hFresh cloneReducer ⟨.obj 0, [7]⟩ (.obj 2)
      = (⟨.obj 0, [7]⟩, [], none) :=
  ⟨rfl, by decide,
    claim_C4_suppression hFresh cloneReducer ⟨.obj 0, [7]⟩ (.obj 2) (.obj 1)
      rfl (by decide)⟩

/-- C5: change-notification exactness — when the reducer's result is
judged unequal to the current state, the cell is replaced by it, the
notification trace invokes exactly the currently-registered listeners, in
set-iteration (registration) order, each passed the new state, which is
the state the store already holds during notification (so `getState()`
from inside a listener sees the updated state); with a duplicate-free
listener set each listener is invoked exactly once. -/
theorem claim_C5_notify (h : Heap) (reducer : Reducer) (st : StoreState)
    (a nextState : JSVal)
    (hr : reducer st.currentState a = .ok nextState)
    (hne : deepEqual h nextState st.currentState = false) :
    baseDispatch h reducer st a
        = (⟨nextState, st.listeners⟩,
            st.listeners.map (fun l => (l, nextState)), none) ∧
      (∀ e ∈ (baseDispatch h reducer st a).2.1,
        e.2 = (baseDispatch h reducer st a).1.currentState) ∧
      (st.listeners.Nodup → ∀ l ∈ st.listeners,
        ((baseDispatch h reducer st a).2.1.map Prod.fst).count l = 1) := by
  have hb : baseDispatch h reducer st a
      = (⟨nextState, st.listeners⟩,
          st.listeners.map (fun l => (l, nextState)), none) := by
    simp [baseDispatch, hr, hne]
  refine ⟨hb, ?_, ?_⟩
  · rw [hb]
    intro e he
    simp only [List.mem_map] at he
    obtain ⟨l, _, rfl⟩ := he
    rfl
  · intro hnd l hl
    rw [hb]
    simp only [List.map_map]
    rw [show (Prod.fst ∘ fun l : Nat => (l, nextState)) = id from rfl,
      List.map_id]
    exact List.count_eq_one_of_mem hnd hl

theorem claim_C5_witness :
    incReducer (.obj 0) (.obj 2) = .ok (.obj 1) ∧
    deepEqual hInc (.obj 1) (.obj 0) = false ∧
    baseDispatch hInc incReducer ⟨.obj 0, [4, 9]⟩ (.obj 2)
      = (⟨.obj 1, [4, 9]⟩, [(4, .obj 1), (9, .obj 1)], none) ∧
    (([4, 9] : List Nat).Nodup →
      ((baseDispatch hInc incReducer ⟨.obj 0, [4, 9]⟩ (.obj 2)).2.1.map
        Prod.fst).count 4 = 1) :=
  ⟨by rfl, by decide,
    (claim_C5_notify hInc incReducer ⟨.obj 0, [4, 9]⟩ (.obj 2) (.obj 1)
      (by rfl) (by decide)).1,
    fun hnd =>
      (claim_C5_notify hInc incReducer ⟨.obj 0, [4, 9]⟩ (.obj 2) (.obj 1)
        (by rfl) (by decide)).2.2 hnd 4 (by decide)⟩

/-- C6: reducer-failure atomicity — when the reducer throws, the
exception propagates out of `baseDispatch`, the state cell still holds
the prior state, and the notification trace is empty. -/
theorem claim_C6_reducer_throw (h : Heap) (reducer : Reducer)
    (st : StoreState) (a : JSVal) (e : String)
    (hr : reducer st.currentState a = .error e) :
    baseDispatch h reducer st a = (st, [], some e) := by
  simp [baseDispatch, hr]

theorem claim_C6_witness :
    failReducer (.obj 0) (.obj 2) = .error "reducer failure" ∧
    baseDispatch hInc failReducer ⟨.obj 0, [4, 9]⟩ (.obj 2)
      = (⟨.obj 0, [4, 9]⟩, [], some "reducer failure") :=
  ⟨rfl,
    claim_C6_reducer_throw hInc failReducer ⟨.obj 0, [4, 9]⟩ (.obj 2)
      "reducer failure" rfl⟩

/-- C7: the re-entrancy guard of `applyMiddleware` — (i) a call into the
guarded raw dispatch made while the flag is set (i.e. while an earlier
call on the same stack is inside the underlying reducer) throws the
distinct re-entrancy error without consulting the wrapped dispatch or
touching the state; (ii) a top-level call runs the wrapped store dispatch
with the flag set, so any nested guarded call during the reducer hits
case (i); (iii) after the guarded dispatch completes or throws, the flag
is reset to `false`, so subsequent top-level dispatches are accepted. -/
theorem claim_C7_reentrancy_guard (inner : DispatchFn) (a : JSVal)
    (ms : MwState) :
    (ms.isReducing = true →
      guardedDispatch inner a ms = (ms, [], some reentrancyMsg)) ∧
    (ms.isReducing = false →
      guardedDispatch inner a ms
        = (⟨(inner a ⟨ms.store, true⟩).1.store, false⟩,
            (inner a ⟨ms.store, true⟩).2.1,
            (inner a ⟨ms.store, true⟩).2.2)) ∧
    (ms.isReducing = false →
      (guardedDispatch inner a ms).1.isReducing = false) := by
  refine ⟨fun ht => ?_, fun hf => ?_, fun hf => ?_⟩
  · simp [guardedDispatch, ht]
  · simp [guardedDispatch, hf]
  · simp [guardedDispatch, hf]

theorem claim_C7_witness :
    guardedDispatch (storeDispatch hInc incReducer) (.obj 2)
        ⟨⟨.obj 0, []⟩, true⟩
      = (⟨⟨.obj 0, []⟩, true⟩, [], some reentrancyMsg) ∧
    (guardedDispatch (storeDispatch hInc incReducer) (.obj 2)
        ⟨⟨.obj 0, []⟩, false⟩).1.isReducing = false :=
  ⟨(claim_C7_reentrancy_guard (storeDispatch hInc incReducer) (.obj 2)
      ⟨⟨.obj 0, []⟩, true⟩).1 rfl,
    (claim_C7_reentrancy_guard (storeDispatch hInc incReducer) (.obj 2)
      ⟨⟨.obj 0, []⟩, false⟩).2.2 rfl⟩

/-- C2 counterexample: the comparator is not symmetric.  Two Sets of equal
cardinality with composite elements — `{{a:1},{a:2}}` and `{{a:1},{a:1}}`
— compare `true` in one order and `false` in the other (each element of
the second set finds a match in the first, but `{a:2}` finds none).
Records can likewise break symmetry through the prototype chain:
`{toString: Object.prototype.toString}` equals `{foo: 1}` (the only left
key is found on `Object.prototype` and the key counts match) but not
conversely (`"foo" in objB` is false). -/
theorem claim_C2_counterexample :
    setCexHeap.get? 0 = some (.set [.obj 2, .obj 3]) ∧
    setCexHeap.get? 1 = some (.set [.obj 4, .obj 5]) ∧
    deepEqual setCexHeap (.obj 0) (.obj 1) = false ∧
    deepEqual setCexHeap (.obj 1) (.obj 0) = true ∧
    protoCexHeap.get? 0
      = some (.record [("toString", .builtin "toString")]) ∧
    protoCexHeap.get? 1 = some (.record [("foo", .num (.int 1))]) ∧
    deepEqual protoCexHeap (.obj 0) (.obj 1) = true ∧
    deepEqual protoCexHeap (.obj 1) (.obj 0) = false :=
  ⟨rfl, rfl, by decide, by decide, rfl, rfl, by decide, by decide⟩

/-- C2 amended: the comparator is symmetric on the primitive, date-like,
pattern-like, ordered-sequence and keyed-record branches provided both
sides are tree-shaped (no composite reference reachable twice, hence no
memo interference), contain no set-like or map-like members, and every
record node has duplicate-free keys none of which names an
`Object.prototype` member (`chk` certifies exactly this); for the
set-like and map-like branches, under shared references, and when a
record key shadows an `Object.prototype` member (so `key in objB` is
satisfied by the prototype chain in one direction only), symmetry can
fail (see the counterexample). -/
theorem claim_C2_amended_symm (h : Heap) (n m : Nat) (a b : JSVal)
    (la lb : List Nat) (hca : chk h n a = some la)
    (hcb : chk h m b = some lb) :
    deepEqual h a b = deepEqual h b a :=
  deepEqual_symm_chk n hca hcb

theorem claim_C2_witness :
    chk treeHeap 2 (.obj 0) = some [0] ∧
    chk treeHeap 2 (.obj 1) = some [1] ∧
    deepEqual treeHeap (.obj 0) (.obj 1)
      = deepEqual treeHeap (.obj 1) (.obj 0) :=
  ⟨by decide, by decide,
    claim_C2_amended_symm treeHeap 2 2 (.obj 0) (.obj 1) [0] [1]
      (by decide) (by decide)⟩

/-- C3 counterexample: the keyed-record iff fails under aliasing and
under prototype-chain hits.  The records `{k1:p, k2:p}` and
`{k1:q1, k2:q2}` (with `p`, `q1`, `q2` all empty) have the same own key
set, and each key's values compare equal at top level, yet `equal`
returns `false`: the memo entry `p ↦ q1` written while comparing `k1`
makes the `k2` comparison `p` vs `q2` fail.  And
`{toString: Object.prototype.toString}` compares `true` against
`{foo: 1}` although `"toString"` is not an own key of the right record:
`key in objB` finds the inherited `Object.prototype.toString`, so the
own-key reading fails when a left key names a prototype member. -/
theorem claim_C3_counterexample :
    aliasHeap.get? 0 = some (.record [("k1", .obj 2), ("k2", .obj 2)]) ∧
    aliasHeap.get? 1 = some (.record [("k1", .obj 3), ("k2", .obj 4)]) ∧
    deepEqual aliasHeap (.obj 2) (.obj 3) = true ∧
    deepEqual aliasHeap (.obj 2) (.obj 4) = true ∧
    deepEqual aliasHeap (.obj 0) (.obj 1) = false ∧
    protoCexHeap.get? 0
      = some (.record [("toString", .builtin "toString")]) ∧
    protoCexHeap.get? 1 = some (.record [("foo", .num (.int 1))]) ∧
    deepEqual protoCexHeap (.obj 0) (.obj 1) = true ∧
    fieldLookup [("foo", JSVal.num (.int 1))] "toString" = none :=
  ⟨rfl, rfl, by decide, by decide, by decide, rfl, rfl, by decide, rfl⟩

/-- C3 amended: for non-identical plain keyed records whose left side is
tree-shaped (no composite reference reachable from it twice, no cycles;
set-like and map-like members are allowed) with duplicate-free keys none
of which names an `Object.prototype` member, and whose right side has
duplicate-free keys, `equal` returns true iff both have the same set of
own enumerable string keys and every key's values are top-level `equal`;
with shared references, or when a left key names a prototype member, the
iff fails (see the counterexample), and only the memo-threaded
sequential reading through the prototype chain remains valid. -/
theorem claim_C3_amended_record_iff (h : Heap) (n i j : Nat) (la : List Nat)
    (fa fb : List (String × JSVal))
    (hij : i ≠ j) (hchk : chkT h n (.obj i) = some la)
    (hga : h.get? i = some (.record fa)) (hgb : h.get? j = some (.record fb))
    (hka : recordKeysOk fa) (hndb : (fb.map Prod.fst).Nodup) :
    deepEqual h (.obj i) (.obj j) = true ↔
      ((∀ k, k ∈ fa.map Prod.fst ↔ k ∈ fb.map Prod.fst) ∧
        ∀ p ∈ fa, ∃ w, fieldLookup fb p.1 = some w ∧
          deepEqual h p.2 w = true) := by
  have hnda : (fa.map Prod.fst).Nodup := hka.1
  rw [den_record_T hij hchk hga hgb]
  constructor
  · intro hb
    simp only [Bool.and_eq_true] at hb
    obtain ⟨hrb, hlend⟩ := hb
    have hlen : fa.length = fb.length := of_decide_eq_true hlend
    have hiff := recordEqBool_iff.mp hrb
    have hiffOwn : ∀ p ∈ fa, ∃ w, fieldLookup fb p.1 = some w ∧
        deepEqual h p.2 w = true := by
      intro p hp
      obtain ⟨w, hw, hd⟩ := hiff p hp
      rw [protoLookup_not_proto
        (hka.2 p.1 (List.mem_map.mpr ⟨p, hp, rfl⟩))] at hw
      exact ⟨w, hw, hd⟩
    refine ⟨?_, hiffOwn⟩
    have hsub : ∀ k ∈ fa.map Prod.fst, k ∈ fb.map Prod.fst := by
      intro k hk
      obtain ⟨p, hp, hpk⟩ := List.mem_map.mp hk
      obtain ⟨w, hw, _⟩ := hiffOwn p hp
      exact hpk ▸ mem_keys_of_lookup hw
    intro k
    exact ⟨hsub k, keys_mem_flip hlen hnda hndb hsub k⟩
  · rintro ⟨hkeys, hvals⟩
    rw [Bool.and_eq_true]
    refine ⟨recordEqBool_iff.mpr (fun p hp => ?_), ?_⟩
    · obtain ⟨w, hw, hd⟩ := hvals p hp
      exact ⟨w, protoLookup_of_own hw, hd⟩
    have hfin : (fa.map Prod.fst).toFinset = (fb.map Prod.fst).toFinset := by
      apply Finset.ext
      intro k
      simp only [List.mem_toFinset]
      exact hkeys k
    have hlen : fa.length = fb.length := by
      have h1 : fa.length = (fa.map Prod.fst).length := by simp
      have h2 : fb.length = (fb.map Prod.fst).length := by simp
      rw [h1, h2, ← List.toFinset_card_of_nodup hnda,
        ← List.toFinset_card_of_nodup hndb, hfin]
    simp [hlen]

theorem claim_C3_witness :
    (0 : Nat) ≠ 1 ∧
    chkT treeHeap 2 (.obj 0) = some [0] ∧
    treeHeap.get? 0 = some (.record [("x", .num (.int 1))]) ∧
    treeHeap.get? 1 = some (.record [("x", .num (.int 1))]) ∧
    recordKeysOk [("x", JSVal.num (.int 1))] ∧
    (deepEqual treeHeap (.obj 0) (.obj 1) = true ↔
      ((∀ k, k ∈ ([("x", JSVal.num (.int 1))].map Prod.fst) ↔
          k ∈ ([("x", JSVal.num (.int 1))].map Prod.fst)) ∧
        ∀ p ∈ [("x", JSVal.num (.int 1))],
          ∃ w, fieldLookup [("x", JSVal.num (.int 1))] p.1 = some w ∧
            deepEqual treeHeap p.2 w = true)) :=
  ⟨by decide, by decide, rfl, rfl, by decide,
    claim_C3_amended_record_iff treeHeap 2 0 1 [0]
      [("x", .num (.int 1))] [("x", .num (.int 1))]
      (by decide) (by decide) rfl rfl (by decide) (by decide)⟩

/-- C8: cycle safety — with fuel `heap size + 1` and a fresh memo the
comparator returns a verdict for every pair of values (no infinite
recursion, cyclic structures included); a self-referential record
compared to a structurally identical self-referential record yields
`true` via the visited-pair memo, and compared to a non-matching
self-referential structure yields `false`. -/
theorem claim_C8_cycle_safety :
    (∀ (h : Heap) (a b : JSVal), (deepEqualF h (h.length + 1) a b []).isSome) ∧
    deepEqual hCyc (.obj 0) (.obj 1) = true ∧
    deepEqual hCyc (.obj 0) (.obj 2) = false :=
  ⟨fun h a b => deepEqualF_total_top h a b, by decide, by decide⟩

/-- C9: with an empty (or omitted) middleware list the store's dispatch
is the untouched base dispatch — in particular it never consults the
thunk environment, so dispatching a function value does not invoke it;
the function value itself is handed to the reducer as the action, and the
ordinary equality-suppression rule applies to the reducer's result. -/
theorem claim_C9_thunk_not_invoked (h : Heap) (reducer : Reducer) :
    (∀ (tenv : ThunkEnv) (n : Nat),
      createStoreDispatchF h reducer tenv [] (n + 1)
        = storeDispatch h reducer) ∧
    (∀ (fid : Nat) (ms : MwState) (nextState : JSVal),
      reducer ms.store.currentState (.fn fid) = .ok nextState →
      (deepEqual h nextState ms.store.currentState = true →
        storeDispatch h reducer (.fn fid) ms = (ms, [], none)) ∧
      (deepEqual h nextState ms.store.currentState = false →
        storeDispatch h reducer (.fn fid) ms
          = (⟨⟨nextState, ms.store.listeners⟩, ms.isReducing⟩,
              ms.store.listeners.map (fun l => (l, nextState)), none))) := by
  constructor
  · intro tenv n
    simp [createStoreDispatchF]
  · intro fid ms nextState hr
    constructor
    · intro heq
      simp [storeDispatch, baseDispatch, hr, heq]
    · intro hne
      simp [storeDispatch, baseDispatch, hr, hne]

theorem claim_C9_witness :
    createStoreDispatchF hFresh cloneReducer tenvNone [] 1
      = storeDispatch hFresh cloneReducer ∧
    cloneReducer (.obj 0) (.fn 11) = .ok (.obj 1) ∧
    deepEqual hFresh (.obj 1) (.obj 0) = true ∧
    storeDispatch hFresh cloneReducer (.fn 11) ⟨⟨.obj 0, [7]⟩, false⟩
      = (⟨⟨.obj 0, [7]⟩, false⟩, [], none) :=
  ⟨(claim_C9_thunk_not_invoked hFresh cloneReducer).1 tenvNone 0,
    rfl, by decide,
    ((claim_C9_thunk_not_invoked hFresh cloneReducer).2 11
      ⟨⟨.obj 0, [7]⟩, false⟩ (.obj 1) rfl).1 (by decide)⟩

/-- C10: the listener set deduplicates by identity — subscribing the same
listener twice is a single registration; a state-changing dispatch then
invokes it exactly once; invoking the unsubscribe capability (both
subscribe calls return a deleter for this same listener) removes it
entirely, after which no dispatch ever notifies it. -/
theorem claim_C10_dedup (st : StoreState) (l : Nat)
    (hnot : l ∉ st.listeners) :
    subscribe (subscribe st l) l = subscribe st l ∧
    (subscribe (subscribe st l) l).listeners.count l = 1 ∧
    (∀ (h : Heap) (reducer : Reducer) (a nextState : JSVal),
      reducer (subscribe (subscribe st l) l).currentState a = .ok nextState →
      deepEqual h nextState (subscribe (subscribe st l) l).currentState
        = false →
      ((baseDispatch h reducer (subscribe (subscribe st l) l) a).2.1.map
        Prod.fst).count l = 1) ∧
    (unsubscribe (subscribe (subscribe st l) l) l).listeners.count l = 0 ∧
    (∀ (h : Heap) (reducer : Reducer) (a : JSVal),
      ((baseDispatch h reducer
        (unsubscribe (subscribe (subscribe st l) l) l) a).2.1.map
          Prod.fst).count l = 0) := by
  have hsub1 : subscribe st l = ⟨st.currentState, st.listeners ++ [l]⟩ := by
    simp [subscribe, hnot]
  have hmem : l ∈ (subscribe st l).listeners := by rw [hsub1]; simp
  have hsub2 : subscribe (subscribe st l) l = subscribe st l := by
    rw [hsub1]
    simp [subscribe]
  have hcount1 : (subscribe (subscribe st l) l).listeners.count l = 1 := by
    rw [hsub2, hsub1]
    simp only [List.count_append]
    rw [List.count_eq_zero.mpr hnot]
    simp
  have hcount0 :
      (unsubscribe (subscribe (subscribe st l) l) l).listeners.count l = 0 := by
    simp only [unsubscribe]
    rw [List.count_erase_self, hcount1]
  refine ⟨hsub2, hcount1, ?_, hcount0, ?_⟩
  · intro h reducer a nextState hr hne
    have hb : baseDispatch h reducer (subscribe (subscribe st l) l) a
        = (⟨nextState, (subscribe (subscribe st l) l).listeners⟩,
            (subscribe (subscribe st l) l).listeners.map
              (fun x => (x, nextState)), none) := by
      simp [baseDispatch, hr, hne]
    rw [hb]
    simp only [List.map_map]
    rw [show (Prod.fst ∘ fun x : Nat => (x, nextState)) = id from rfl,
      List.map_id]
    exact hcount1
  · intro h reducer a
    cases hr : reducer
        (unsubscribe (subscribe (subscribe st l) l) l).currentState a with
    | error e => simp [baseDispatch, hr]
    | ok nextState =>
      cases hne : deepEqual h nextState
          (unsubscribe (subscribe (subscribe st l) l) l).currentState with
      | true => simp [baseDispatch, hr, hne]
      | false =>
        have hb : baseDispatch h reducer
            (unsubscribe (subscribe (subscribe st l) l) l) a
            = (⟨nextState,
                (unsubscribe (subscribe (subscribe st l) l) l).listeners⟩,
                (unsubscribe (subscribe (subscribe st l) l) l).listeners.map
                  (fun x => (x, nextState)), none) := by
          simp [baseDispatch, hr, hne]
        rw [hb]
        simp only [List.map_map]
        rw [show (Prod.fst ∘ fun x : Nat => (x, nextState)) = id from rfl,
          List.map_id]
        exact hcount0

theorem claim_C10_witness :
    subscribe (subscribe ⟨.obj 0, [3]⟩ 5) 5 = subscribe ⟨.obj 0, [3]⟩ 5 ∧
    (subscribe (subscribe ⟨.obj 0, [3]⟩ 5) 5).listeners.count 5 = 1 ∧
    (unsubscribe (subscribe (subscribe ⟨.obj 0, [3]⟩ 5) 5) 5).listeners.count 5
      = 0 :=
  ⟨(claim_C10_dedup ⟨.obj 0, [3]⟩ 5 (by decide)).1,
    (claim_C10_dedup ⟨.obj 0, [3]⟩ 5 (by decide)).2.1,
    (claim_C10_dedup ⟨.obj 0, [3]⟩ 5 (by decide)).2.2.2.1⟩

end Refluxio
